import Mathlib

/-!
Verification of the Erlang External Term Format codec
(`src/priv/python/erlport/erlterms.py`) against its specification.

Modelling conventions:
* Byte strings are `List Nat` with every entry a value below 256 (well-formedness
  predicates state this where a claim needs it); the Python `str` values the
  codec slices are 8-bit clean.
* Machine reads (`unpack`) are explicit big-endian arithmetic on byte lists.
* Python floats are modelled by their IEEE-754 binary64 bit pattern (a `Nat`
  below `2 ^ 64`): `pack(">d", f)` writes exactly those 8 bytes and
  `unpack(">d", b)` reads them back, so the codec only ever moves the
  pattern around.
* The host-supplied collaborators that the source imports from the standard
  library (`cPickle.loads`, the ASCII `float()` parser used by the legacy
  FLOAT tag, `zlib.compress` and `zlib.decompressobj`) are abstract
  functions collected in a `Host` structure; theorems about compressed
  framing state the deflate stream contract they rely on as a hypothesis.
* Fallible Python code (`raise`) is modelled by `Except`; each distinct
  `ValueError`/`struct.error` site gets its own error constructor.
* The recursive decoder is written with an explicit fuel argument so that it
  is structurally recursive; `fuelErr` is the (provably unreachable for
  sufficient fuel) out-of-fuel marker, and the entry point supplies
  `2 * length + 2` fuel, which the `decode_noFuel` lemmas show is enough.
* The term algebra is the one of the specification §3.  The `Map` variant
  (Python `dict`, encoded through a host-order sort) and the host `unicode`
  string type are outside every claim and are not modelled.
-/

namespace ErlTerms

/-- Erlang term algebra of spec §3, as produced/consumed by the Python codec:
decoded Python values are ints/longs (`int`), floats (`float`), `Atom`,
`BitBinary`, plain `str` (`bin`), lists, tuples, `Pid`, `Port`, `Reference`,
`Export`, and the decode-side images `True`/`False`/`None` of the atoms
`true`/`false`/`none`. -/
inductive Term where
  | int (n : Int)
  | float (pattern : Nat)
  | atom (name : List Nat)
  | bits (data : List Nat) (bits : Nat)
  | bin (data : List Nat)
  | list (items : List Term)
  | tuple (items : List Term)
  | pid (node : Term) (id : List Nat) (serial : List Nat) (creation : Nat)
  | port (node : Term) (id : List Nat) (creation : Nat)
  | ref (node : Term) (id : List Nat) (creation : Nat)
  | exp (module : Term) (function : Term) (arity : Term)
  | bool (b : Bool)
  | null
deriving Repr

/-- Abstract host collaborators used by the codec: `loads`/`dumps` come from
`cPickle`, `parseFloat` is the builtin `float()` on the ASCII text of a
legacy FLOAT body (returning a binary64 pattern), and `compress` /
`decompress` wrap `zlib`. `decompress z` returns the inflated payload and
the `unused_data` trailing bytes. -/
structure Host where
  loads : Term → Except Unit Term
  parseFloat : List Nat → Except Unit Nat
  compress : Nat → List Nat → List Nat
  decompress : List Nat → List Nat × List Nat

/-- Big-endian value of a byte list (the arithmetic meaning of
`unpack(">H")`, `unpack(">I")`, `unpack(">d")` on the sliced bytes). -/
def beVal (l : List Nat) : Nat := l.foldl (fun a b => a * 256 + b) 0

/-- `beBytes w v` is the `w`-byte big-endian encoding of `v` (the output of
`pack` with a fixed-width format). -/
def beBytes : Nat → Nat → List Nat
  | 0, _ => []
  | w + 1, v => beBytes w (v / 256) ++ [v % 256]

/-- `readN n s`: the check-then-slice idiom `if len(s) < n: raise
IncompleteData` / `s[:n], s[n:]` of the decoder. -/
def readN (n : Nat) (s : List Nat) : Option (List Nat × List Nat) :=
  if n ≤ s.length then some (s.take n, s.drop n) else none

/-- Little-endian magnitude bytes of the big-integer encoder, with an explicit
bound on the number of iterations (the source's
`while term > 0: bytes.append(term & 0xff); term >>= 8`; `m` iterations
always suffice because `m / 256 < m` for positive `m`). -/
def magBytesF : Nat → Nat → List Nat
  | 0, _ => []
  | fuel + 1, m => if m = 0 then [] else (m &&& 255) :: magBytesF fuel (m >>> 8)

/-- Little-endian minimal magnitude bytes of `m` (`[]` for `m = 0`). -/
def magBytes (m : Nat) : List Nat := magBytesF m m

/-- Encoder errors: one constructor per `raise` site of `encode_term` /
`encode`, plus `packRange` for the `struct.error`/`OverflowError` a
fixed-width `pack`/`"%c"` raises when a value does not fit its field. -/
inductive EncErr where
  | invalidTupleArity
  | invalidListLength
  | invalidBinaryLength
  | invalidIntegerValue
  | invalidPidSerial
  | invalidPortId
  | packRange
deriving Repr, DecidableEq

/-- The element test of the STRING fast path for lists: `array('B', term)`
succeeds exactly on ints (including Python `bool`, an `int` subtype, whose
`True`/`False` coerce to bytes 1/0) in `[0, 255]`; other element types raise
`TypeError` and out-of-range ints raise `OverflowError`, both caught. -/
def stringableElem : Term → Bool
  | .int n => 0 ≤ n && n ≤ 255
  | .bool _ => true
  | _ => false

/-- Byte an element contributes on the STRING fast path. -/
def byteOf : Term → Nat
  | .int n => n.toNat
  | .bool b => if b then 1 else 0
  | _ => 0

mutual

/-- `encode_term` of the source, over the §3 term algebra.  The Python
`isinstance` dispatch chain becomes a match on `Term` constructors (the
source's ordering concerns — `Atom`/`BitBinary` before `str`, `True`/`False`
before `int` — are what make the constructors disjoint).  The final
pickle fallback branch is unreachable here because the algebra is closed. -/
def encT : Term → Except EncErr (List Nat)
  | .tuple items => do
    let arity := items.length
    let header ←
      if arity ≤ 255 then .ok [104, arity]
      else if arity ≤ 4294967295 then .ok (105 :: beBytes 4 arity)
      else .error .invalidTupleArity
    let body ← encL items
    .ok (header ++ body)
  | .list items =>
    if items.isEmpty then .ok [106]
    else
      let length := items.length
      if length ≤ 65535 && items.all stringableElem then
        .ok (107 :: beBytes 2 length ++ items.map byteOf)
      else if 4294967295 < length then .error .invalidListLength
      else do
        let body ← encL items
        .ok (108 :: beBytes 4 length ++ body ++ [106])
  | .atom name =>
    if name.length ≤ 65535 then .ok (100 :: beBytes 2 name.length ++ name)
    else .error .packRange
  | .bits data b =>
    if data.length ≤ 4294967295 && b ≤ 255 then
      .ok (77 :: beBytes 4 data.length ++ b :: data)
    else .error .packRange
  | .bin data =>
    if 4294967295 < data.length then .error .invalidBinaryLength
    else .ok (109 :: beBytes 4 data.length ++ data)
  | .bool b =>
    if b then .ok [100, 0, 4, 116, 114, 117, 101]
    else .ok [100, 0, 5, 102, 97, 108, 115, 101]
  | .int n =>
    if 0 ≤ n && n ≤ 255 then .ok [97, n.toNat]
    else if -2147483648 ≤ n && n ≤ 2147483647 then
      .ok (98 :: beBytes 4 (n % 4294967296).toNat)
    else
      let sign := if 0 ≤ n then 0 else 1
      let bytes := magBytes n.natAbs
      let length := bytes.length
      if length ≤ 255 then .ok (110 :: length :: sign :: bytes)
      else if length ≤ 4294967295 then
        .ok (111 :: beBytes 4 length ++ sign :: bytes)
      else .error .invalidIntegerValue
  | .float pattern => .ok (70 :: beBytes 8 pattern)
  | .null => .ok [100, 0, 4, 110, 111, 110, 101]
  | .pid node id serial creation => do
    let nb ← encT node
    if serial.length ≠ 4 then .error .invalidPidSerial
    else if 255 < creation then .error .packRange
    else .ok (103 :: nb ++ id ++ serial ++ [creation])
  | .ref node id creation => do
    let nb ← encT node
    let num := id.length / 4
    if 65535 < num then .error .packRange
    else if 255 < creation then .error .packRange
    else .ok (114 :: beBytes 2 num ++ nb ++ creation :: id)
  | .port node id creation => do
    let nb ← encT node
    if id.length ≠ 4 then .error .invalidPortId
    else if 255 < creation then .error .packRange
    else .ok (102 :: nb ++ id ++ [creation])
  | .exp m f a => do
    let mb ← encT m
    let fb ← encT f
    let ab ← encT a
    .ok (113 :: mb ++ fb ++ ab)

/-- `"".join(encode_term(t) for t in term)`: concatenation of the element
encodings of a tuple body or LIST body. -/
def encL : List Term → Except EncErr (List Nat)
  | [] => .ok []
  | t :: ts => do
    let b ← encT t
    let rest ← encL ts
    .ok (b ++ rest)

end

/-- Decoder errors: `incomplete` is `IncompleteData`; `badVersion`,
`sizeMismatch` and `unsupported` are the three `ValueError`s of
`decode`/`decode_term`; `badStruct` is the `struct.error` `unpack(">d")`
raises on a short slice; `badFloat` is the `ValueError` of `float()` on
unparsable text; `bridgeFailed` is an exception escaping `cPickle.loads`;
`fuelOut` is the out-of-fuel marker of the model (unreachable with the
fuel the entry point supplies). -/
inductive DErr where
  | incomplete
  | badVersion
  | sizeMismatch
  | unsupported
  | badStruct
  | badFloat
  | bridgeFailed
  | fuelOut
deriving Repr, DecidableEq

/-- Lift the check-then-slice reader into the decoder monad, raising
`IncompleteData` on underflow. -/
def need (o : Option (List Nat × List Nat)) : Except DErr (List Nat × List Nat) :=
  match o with
  | some p => .ok p
  | none => .error .incomplete

/-- `s.split("\x00", 1)[0]`: the prefix before the first NUL byte. -/
def untilNul (s : List Nat) : List Nat := s.takeWhile (· ≠ 0)

/-- The ASCII bytes of the atom names the decoder special-cases. -/
def trueName : List Nat := [116, 114, 117, 101]

/-- ASCII bytes of `false`. -/
def falseName : List Nat := [102, 97, 108, 115, 101]

/-- ASCII bytes of `none`. -/
def noneName : List Nat := [110, 111, 110, 101]

/-- ASCII bytes of the reserved fallback atom `python_pickle`. -/
def pickleName : List Nat :=
  [112, 121, 116, 104, 111, 110, 95, 112, 105, 99, 107, 108, 101]

/-- The accumulation loop of SMALL_BIG/LARGE_BIG decoding:
`for i in array('B', tail[length-1::-1]): n = (n << 8) | i`. -/
def bigVal (l : List Nat) : Nat :=
  l.reverse.foldl (fun n i => (n <<< 8) ||| i) 0

/-- The Python comparison `lst[0] == Atom("python_pickle")`: `Atom`,
`BitBinary` and plain `str` (Binary) all compare equal to an `Atom` by
string contents; every other decoded value compares unequal. -/
def isPickleHead : Term → Bool
  | .atom s => s = pickleName
  | .bin s => s = pickleName
  | .bits s _ => s = pickleName
  | _ => false

/-- Post-processing of a decoded tuple body: `if len(lst) == 2 and
lst[0] == Atom("python_pickle"): return loads(lst[1]), tail` — with no
handler around `loads`, so a `loads` failure escapes. -/
def finishTuple (host : Host) (items : List Term) (tail : List Nat) :
    Except DErr (Term × List Nat) :=
  match items with
  | [a, x] =>
    if isPickleHead a then
      match host.loads x with
      | .ok u => .ok (u, tail)
      | .error _ => .error .bridgeFailed
    else .ok (.tuple items, tail)
  | _ => .ok (.tuple items, tail)

mutual

/-- `decode_term` of the source: dispatch on the tag byte, with fuel for the
recursion (first argument; each recursive call gets one unit less). -/
def decodeT (host : Host) : Nat → List Nat → Except DErr (Term × List Nat)
  | 0, _ => .error .fuelOut
  | fuel + 1, s =>
    match s with
    | [] => .error .incomplete
    | tag :: tail =>
      match tag with
      | 97 => do
        -- SMALL_INTEGER_EXT
        let (b, r) ← need (readN 1 tail)
        .ok (.int (beVal b), r)
      | 98 => do
        -- INTEGER_EXT: unpack(">i"), big-endian two's complement
        let (b, r) ← need (readN 4 tail)
        let v := beVal b
        .ok (.int (if v < 2147483648 then (v : Int) else (v : Int) - 4294967296), r)
      | 106 =>
        -- NIL_EXT
        .ok (.list [], tail)
      | 107 => do
        -- STRING_EXT
        let (lb, r) ← need (readN 2 tail)
        let (b, r2) ← need (readN (beVal lb) r)
        .ok (.list (b.map fun (i : Nat) => Term.int (i : Int)), r2)
      | 108 => do
        -- LIST_EXT: `length` elements, then one further term that is
        -- decoded and discarded (`ignored, tail = decode_term(tail)`)
        let (lb, r) ← need (readN 4 tail)
        let (items, r2) ← decodeS host fuel (beVal lb) r
        let (_, r3) ← decodeT host fuel r2
        .ok (.list items, r3)
      | 109 => do
        -- BINARY_EXT
        let (lb, r) ← need (readN 4 tail)
        let (b, r2) ← need (readN (beVal lb) r)
        .ok (.bin b, r2)
      | 100 => do
        -- ATOM_EXT, with the true/false/none mapping
        let (lb, r) ← need (readN 2 tail)
        let (name, r2) ← need (readN (beVal lb) r)
        if name = trueName then .ok (.bool true, r2)
        else if name = falseName then .ok (.bool false, r2)
        else if name = noneName then .ok (.null, r2)
        else .ok (.atom name, r2)
      | 104 => do
        -- SMALL_TUPLE_EXT
        let (ab, r) ← need (readN 1 tail)
        let (items, r2) ← decodeS host fuel (beVal ab) r
        finishTuple host items r2
      | 105 => do
        -- LARGE_TUPLE_EXT
        let (ab, r) ← need (readN 4 tail)
        let (items, r2) ← decodeS host fuel (beVal ab) r
        finishTuple host items r2
      | 70 => do
        -- NEW_FLOAT_EXT: unpack(">d", tail[:8]) with no length check;
        -- a short slice raises struct.error, not IncompleteData
        let (b, r) ←
          match readN 8 tail with
          | some p => Except.ok p
          | none => Except.error DErr.badStruct
        .ok (.float (beVal b), r)
      | 99 =>
        -- FLOAT_EXT (legacy): float(tail[:31].split("\x00", 1)[0]), again
        -- with no length check; short input is parsed as-is
        match host.parseFloat (untilNul (tail.take 31)) with
        | .ok p => .ok (.float p, tail.drop 31)
        | .error _ => .error .badFloat
      | 110 => do
        -- SMALL_BIG_EXT
        let (hb, r) ← need (readN 2 tail)
        let (b, r2) ← need (readN (beVal (hb.take 1)) r)
        .ok (.int (if beVal (hb.drop 1) ≠ 0 then -(bigVal b : Int) else (bigVal b : Int)), r2)
      | 111 => do
        -- LARGE_BIG_EXT
        let (hb, r) ← need (readN 5 tail)
        let (b, r2) ← need (readN (beVal (hb.take 4)) r)
        .ok (.int (if beVal (hb.drop 4) ≠ 0 then -(bigVal b : Int) else (bigVal b : Int)), r2)
      | 77 => do
        -- BIT_BINARY_EXT
        let (hb, r) ← need (readN 5 tail)
        let (b, r2) ← need (readN (beVal (hb.take 4)) r)
        .ok (.bits b (beVal (hb.drop 4)), r2)
      | 103 => do
        -- PID_EXT
        let (node, r) ← decodeT host fuel tail
        let (b, r2) ← need (readN 9 r)
        .ok (.pid node (b.take 4) ((b.drop 4).take 4) (beVal (b.drop 8)), r2)
      | 101 => do
        -- REFERENCE_EXT
        let (node, r) ← decodeT host fuel tail
        let (b, r2) ← need (readN 5 r)
        .ok (.ref node (b.take 4) (beVal (b.drop 4)), r2)
      | 102 => do
        -- PORT_EXT
        let (node, r) ← decodeT host fuel tail
        let (b, r2) ← need (readN 5 r)
        .ok (.port node (b.take 4) (beVal (b.drop 4)), r2)
      | 114 => do
        -- NEW_REFERENCE_EXT
        let (nb, r) ← need (readN 2 tail)
        let (node, r2) ← decodeT host fuel r
        let (b, r3) ← need (readN (1 + beVal nb * 4) r2)
        .ok (.ref node (b.drop 1) (beVal (b.take 1)), r3)
      | 113 => do
        -- EXPORT_EXT
        let (m, r) ← decodeT host fuel tail
        let (f, r2) ← decodeT host fuel r
        let (a, r3) ← decodeT host fuel r2
        .ok (.exp m f a, r3)
      | _ => .error .unsupported

/-- The element loop of LIST/TUPLE decoding: decode `n` consecutive terms. -/
def decodeS (host : Host) : Nat → Nat → List Nat → Except DErr (List Term × List Nat)
  | 0, _, _ => .error .fuelOut
  | _ + 1, 0, s => .ok ([], s)
  | fuel + 1, n + 1, s => do
    let (t, r) ← decodeT host fuel s
    let (ts, r2) ← decodeS host fuel n r
    .ok (t :: ts, r2)

end

/-- Fuel budget the entry point hands the tag decoder; `decode_noFuel`
shows it can never run out. -/
def fuelFor (s : List Nat) : Nat := 2 * s.length + 2

/-- `decode` of the source: version byte, optional `0x50` compressed
sub-tag (inflate, check the declared uncompressed size, return the
decompressor's `unused_data` as tail), else `decode_term` on the rest. -/
def decode (host : Host) (s : List Nat) : Except DErr (Term × List Nat) :=
  match s with
  | [] => .error .incomplete
  | version :: rest =>
    if version ≠ 131 then .error .badVersion
    else if rest.take 1 = [80] then
      if s.length < 6 then .error .incomplete
      else
        let inflated := host.decompress (s.drop 6)
        if inflated.1.length ≠ beVal ((s.take 6).drop 2) then .error .sizeMismatch
        else do
          let (t, _) ← decodeT host (fuelFor inflated.1) inflated.1
          .ok (t, inflated.2)
    else decodeT host (fuelFor rest) rest

/-- The compression argument of `encode`: a Python bool or an int level.
`False` and `0` are falsy; `True` normalizes to level 6. -/
inductive CompressArg where
  | bool (b : Bool)
  | level (n : Nat)
deriving Repr, DecidableEq

/-- Truthiness / level normalization of `encode`'s `compressed` argument. -/
def truthyLevel : CompressArg → Option Nat
  | .bool false => none
  | .bool true => some 6
  | .level 0 => none
  | .level (n + 1) => some (n + 1)

/-- `encode`: frame the payload, optionally deflating it; the compressed
framing (`0x83 0x50`, u32 payload size, deflate stream) is used only when
`len(zlib_term) + 5 <= len(encoded_term)` (`pack('>I', ...)` additionally
requires the payload length to fit 32 bits). -/
def encode (host : Host) (term : Term) (compressed : CompressArg) :
    Except EncErr (List Nat) := do
  let payload ← encT term
  match truthyLevel compressed with
  | none => .ok (131 :: payload)
  | some level =>
    let z := host.compress level payload
    if z.length + 5 ≤ payload.length then
      if payload.length ≤ 4294967295 then
        .ok (131 :: 80 :: beBytes 4 payload.length ++ z)
      else .error .packRange
    else .ok (131 :: payload)

/-- All entries of a byte string are actual bytes. -/
def bytesOk (l : List Nat) : Bool := l.all (· < 256)

/-- A 2-element tuple body whose first element triggers the fallback-bridge
recognition of the decoder. -/
def isPickle2 : List Term → Bool
  | [a, _] => isPickleHead a
  | _ => false

mutual

/-- Terms of the §3 algebra satisfying the §3 invariants (byte-string
fields 8-bit clean, atoms at most 255 bytes, BitBinary trailing-bit count
in `[1, 8]`, Pid/Port ids of 4 bytes, Reference ids of `4k` bytes,
creation bytes, wire-format length limits), with Boolean and NullSentinel
excluded, and with the two shapes the decoder maps elsewhere excluded:
atoms named `true`/`false`/`none` and 2-tuples recognized as fallback
pairs. -/
def wfT : Term → Bool
  | .int _ => true
  | .float p => p < 18446744073709551616
  | .atom s => bytesOk s && s.length ≤ 255 &&
      s ≠ trueName && s ≠ falseName && s ≠ noneName
  | .bits d b => bytesOk d && d.length ≤ 4294967295 && 1 ≤ b && b ≤ 8
  | .bin d => bytesOk d && d.length ≤ 4294967295
  | .list l => wfL l && l.length ≤ 4294967295
  | .tuple l => wfL l && l.length ≤ 4294967295 && !isPickle2 l
  | .pid node id serial c => wfT node && bytesOk id && id.length = 4 &&
      bytesOk serial && serial.length = 4 && c ≤ 255
  | .port node id c => wfT node && bytesOk id && id.length = 4 && c ≤ 255
  | .ref node id c => wfT node && bytesOk id && id.length % 4 = 0 &&
      4 ≤ id.length && id.length / 4 ≤ 65535 && c ≤ 255
  | .exp m f a => wfT m && wfT f && wfT a
  | .bool _ => false
  | .null => false

/-- `wfT` on every element. -/
def wfL : List Term → Bool
  | [] => true
  | t :: ts => wfT t && wfL ts

end

mutual

/-- No Float subterm anywhere in the term. -/
def floatFreeT : Term → Bool
  | .float _ => false
  | .list l => floatFreeL l
  | .tuple l => floatFreeL l
  | .pid node _ _ _ => floatFreeT node
  | .port node _ _ => floatFreeT node
  | .ref node _ _ => floatFreeT node
  | .exp m f a => floatFreeT m && floatFreeT f && floatFreeT a
  | _ => true

/-- `floatFreeT` on every element. -/
def floatFreeL : List Term → Bool
  | [] => true
  | t :: ts => floatFreeT t && floatFreeL ts

end

/-! ### Byte-level helper lemmas -/

theorem beVal_foldl (b : List Nat) (i : Nat) :
    b.foldl (fun a x => a * 256 + x) i = i * 256 ^ b.length + beVal b := by
  induction b generalizing i with
  | nil => simp [beVal]
  | cons x xs ih =>
    rw [List.foldl_cons, ih (i * 256 + x)]
    have hx : beVal (x :: xs) = x * 256 ^ xs.length + beVal xs := by
      show List.foldl _ 0 (x :: xs) = _
      rw [List.foldl_cons, ih (0 * 256 + x)]
      norm_num
    rw [hx]
    simp only [List.length_cons, pow_succ]
    ring

theorem beVal_append (a b : List Nat) :
    beVal (a ++ b) = beVal a * 256 ^ b.length + beVal b := by
  unfold beVal
  rw [List.foldl_append]
  exact beVal_foldl b _

theorem beBytes_length (w v : Nat) : (beBytes w v).length = w := by
  induction w generalizing v with
  | zero => rfl
  | succ w ih => simp [beBytes, ih]

theorem beVal_beBytes (w v : Nat) (h : v < 256 ^ w) :
    beVal (beBytes w v) = v := by
  induction w generalizing v with
  | zero =>
    simp only [Nat.pow_zero, Nat.lt_one_iff] at h
    simp [beBytes, beVal, h]
  | succ w ih =>
    have hd : v / 256 < 256 ^ w := by
      rw [Nat.div_lt_iff_lt_mul (by norm_num)]
      calc v < 256 ^ (w + 1) := h
        _ = 256 ^ w * 256 := by ring
    show beVal (beBytes w (v / 256) ++ [v % 256]) = v
    rw [beVal_append, ih (v / 256) hd]
    have hs : beVal [v % 256] = v % 256 := by simp [beVal]
    rw [hs]
    simp only [List.length_singleton, pow_one]
    omega

theorem bytesOk_beBytes (w v : Nat) : bytesOk (beBytes w v) = true := by
  induction w generalizing v with
  | zero => rfl
  | succ w ih =>
    show bytesOk (beBytes w (v / 256) ++ [v % 256]) = true
    simp only [bytesOk, List.all_append, Bool.and_eq_true]
    refine ⟨ih (v / 256), ?_⟩
    simp [Nat.mod_lt v (by norm_num : (0:Nat) < 256)]

theorem readN_some {n : Nat} {s a r : List Nat} (h : readN n s = some (a, r)) :
    n ≤ s.length ∧ a = s.take n ∧ r = s.drop n := by
  unfold readN at h
  split at h
  · cases h; exact ⟨by assumption, rfl, rfl⟩
  · cases h

theorem readN_exact {n : Nat} (a r : List Nat) (h : a.length = n) :
    readN n (a ++ r) = some (a, r) := by
  subst h
  unfold readN
  rw [if_pos (by simp), List.take_left, List.drop_left]

theorem readN_none {n : Nat} {s : List Nat} (h : s.length < n) :
    readN n s = none := by
  unfold readN
  rw [if_neg (by omega)]

theorem readN_take_short {n k : Nat} (s : List Nat) (h : k < n) :
    readN n (s.take k) = none := by
  apply readN_none
  calc (s.take k).length ≤ k := by simp
    _ < n := h

theorem beVal_singleton (x : Nat) : beVal [x] = x := by simp [beVal]

/-! ### Monadic plumbing -/

theorem exbind_eq_ok {ε α β : Type} {m : Except ε α} {f : α → Except ε β}
    {b : β} (h : m >>= f = .ok b) : ∃ a, m = .ok a ∧ f a = .ok b := by
  cases m with
  | ok a => exact ⟨a, rfl, h⟩
  | error e => exact absurd h (by simp [Bind.bind, Except.bind])

theorem exbind_eq_error {ε α β : Type} {m : Except ε α} {f : α → Except ε β}
    {e : ε} (h : m >>= f = .error e) :
    m = .error e ∨ ∃ a, m = .ok a ∧ f a = .error e := by
  cases m with
  | ok a => exact .inr ⟨a, rfl, h⟩
  | error e2 =>
    left
    have h2 : (Except.error e2 : Except ε α) >>= f = .error e2 := by
      simp [Bind.bind, Except.bind]
    rw [h2] at h
    injection h with he
    rw [he]

theorem need_eq_ok {p : List Nat × List Nat} {o : Option (List Nat × List Nat)}
    (h : need o = .ok p) : o = some p := by
  unfold need at h
  split at h
  · cases h; rfl
  · cases h

theorem need_eq_error {e : DErr} {o : Option (List Nat × List Nat)}
    (h : need o = .error e) : o = none ∧ e = .incomplete := by
  unfold need at h
  split at h
  · cases h
  · cases h; exact ⟨rfl, rfl⟩

/-! ### Consumption: a successful decode always consumes input -/

theorem readN_ok_length {n : Nat} {s a r : List Nat}
    (h : readN n s = some (a, r)) :
    a.length = n ∧ r.length = s.length - n ∧ n ≤ s.length := by
  obtain ⟨hn, ha, hr⟩ := readN_some h
  subst ha; subst hr
  exact ⟨by simp [hn], by simp, hn⟩

mutual

theorem decodeT_consume (host : Host) :
    ∀ (fuel : Nat) (s : List Nat) (t : Term) (r : List Nat),
      decodeT host fuel s = .ok (t, r) → r.length < s.length
  | 0, s, t, r, h => by
    simp [decodeT] at h
  | fuel + 1, s, t, r, h => by
    cases s with
    | nil => simp [decodeT] at h
    | cons tag tail =>
      simp only [decodeT] at h
      split at h
      case _ =>  -- 97
        obtain ⟨⟨b, r1⟩, hm, h⟩ := exbind_eq_ok h
        dsimp only at h
        obtain ⟨_, hlen, hle⟩ := readN_ok_length (need_eq_ok hm)
        cases h
        simp only [List.length_cons]
        omega
      case _ =>  -- 98
        obtain ⟨⟨b, r1⟩, hm, h⟩ := exbind_eq_ok h
        dsimp only at h
        obtain ⟨_, hlen, hle⟩ := readN_ok_length (need_eq_ok hm)
        cases h
        simp only [List.length_cons]
        omega
      case _ =>  -- 106
        cases h
        simp
      case _ =>  -- 107
        obtain ⟨⟨lb, r1⟩, hm, h⟩ := exbind_eq_ok h
        dsimp only at h
        obtain ⟨_, hlen, hle⟩ := readN_ok_length (need_eq_ok hm)
        obtain ⟨⟨b, r2⟩, hm2, h⟩ := exbind_eq_ok h
        dsimp only at h
        obtain ⟨_, hlen2, hle2⟩ := readN_ok_length (need_eq_ok hm2)
        cases h
        simp only [List.length_cons]
        omega
      case _ =>  -- 108
        obtain ⟨⟨lb, r1⟩, hm, h⟩ := exbind_eq_ok h
        dsimp only at h
        obtain ⟨_, hlen, hle⟩ := readN_ok_length (need_eq_ok hm)
        obtain ⟨⟨items, r2⟩, hs, h⟩ := exbind_eq_ok h
        dsimp only at h
        have h2 := decodeS_consume host fuel _ _ _ _ hs
        obtain ⟨⟨ig, r3⟩, ht, h⟩ := exbind_eq_ok h
        dsimp only at h
        have h3 := decodeT_consume host fuel _ _ _ ht
        cases h
        simp only [List.length_cons]
        omega
      case _ =>  -- 109
        obtain ⟨⟨lb, r1⟩, hm, h⟩ := exbind_eq_ok h
        dsimp only at h
        obtain ⟨_, hlen, hle⟩ := readN_ok_length (need_eq_ok hm)
        obtain ⟨⟨b, r2⟩, hm2, h⟩ := exbind_eq_ok h
        dsimp only at h
        obtain ⟨_, hlen2, hle2⟩ := readN_ok_length (need_eq_ok hm2)
        cases h
        simp only [List.length_cons]
        omega
      case _ =>  -- 100
        obtain ⟨⟨lb, r1⟩, hm, h⟩ := exbind_eq_ok h
        dsimp only at h
        obtain ⟨_, hlen, hle⟩ := readN_ok_length (need_eq_ok hm)
        obtain ⟨⟨nm, r2⟩, hm2, h⟩ := exbind_eq_ok h
        dsimp only at h
        obtain ⟨_, hlen2, hle2⟩ := readN_ok_length (need_eq_ok hm2)
        split at h <;> [skip; split at h] <;> [skip; skip; split at h] <;>
          cases h <;> simp only [List.length_cons] <;> omega
      case _ =>  -- 104
        obtain ⟨⟨ab, r1⟩, hm, h⟩ := exbind_eq_ok h
        dsimp only at h
        obtain ⟨_, hlen, hle⟩ := readN_ok_length (need_eq_ok hm)
        obtain ⟨⟨items, r2⟩, hs, h⟩ := exbind_eq_ok h
        dsimp only at h
        have h2 := decodeS_consume host fuel _ _ _ _ hs
        have h3 : r = r2 := by
          unfold finishTuple at h
          split at h
          · split at h
            · split at h
              · cases h; rfl
              · cases h
            · cases h; rfl
          · cases h; rfl
        subst h3
        simp only [List.length_cons]
        omega
      case _ =>  -- 105
        obtain ⟨⟨ab, r1⟩, hm, h⟩ := exbind_eq_ok h
        dsimp only at h
        obtain ⟨_, hlen, hle⟩ := readN_ok_length (need_eq_ok hm)
        obtain ⟨⟨items, r2⟩, hs, h⟩ := exbind_eq_ok h
        dsimp only at h
        have h2 := decodeS_consume host fuel _ _ _ _ hs
        have h3 : r = r2 := by
          unfold finishTuple at h
          split at h
          · split at h
            · split at h
              · cases h; rfl
              · cases h
            · cases h; rfl
          · cases h; rfl
        subst h3
        simp only [List.length_cons]
        omega
      case _ =>  -- 70
        split at h
        · rename_i p heq
          obtain ⟨b, r1⟩ := p
          simp only [bind, Except.bind] at h
          cases h
          obtain ⟨_, hlen, hle⟩ := readN_ok_length heq
          simp only [List.length_cons]
          omega
        · cases h
      case _ =>  -- 99
        split at h
        · cases h
          simp only [List.length_cons, List.length_drop]
          omega
        · cases h
      case _ =>  -- 110
        obtain ⟨⟨hb, r1⟩, hm, h⟩ := exbind_eq_ok h
        dsimp only at h
        obtain ⟨_, hlen, hle⟩ := readN_ok_length (need_eq_ok hm)
        obtain ⟨⟨b, r2⟩, hm2, h⟩ := exbind_eq_ok h
        dsimp only at h
        obtain ⟨_, hlen2, hle2⟩ := readN_ok_length (need_eq_ok hm2)
        cases h
        simp only [List.length_cons]
        omega
      case _ =>  -- 111
        obtain ⟨⟨hb, r1⟩, hm, h⟩ := exbind_eq_ok h
        dsimp only at h
        obtain ⟨_, hlen, hle⟩ := readN_ok_length (need_eq_ok hm)
        obtain ⟨⟨b, r2⟩, hm2, h⟩ := exbind_eq_ok h
        dsimp only at h
        obtain ⟨_, hlen2, hle2⟩ := readN_ok_length (need_eq_ok hm2)
        cases h
        simp only [List.length_cons]
        omega
      case _ =>  -- 77
        obtain ⟨⟨hb, r1⟩, hm, h⟩ := exbind_eq_ok h
        dsimp only at h
        obtain ⟨_, hlen, hle⟩ := readN_ok_length (need_eq_ok hm)
        obtain ⟨⟨b, r2⟩, hm2, h⟩ := exbind_eq_ok h
        dsimp only at h
        obtain ⟨_, hlen2, hle2⟩ := readN_ok_length (need_eq_ok hm2)
        cases h
        simp only [List.length_cons]
        omega
      case _ =>  -- 103
        obtain ⟨⟨node, r1⟩, hn, h⟩ := exbind_eq_ok h
        dsimp only at h
        have h1 := decodeT_consume host fuel _ _ _ hn
        obtain ⟨⟨b, r2⟩, hm, h⟩ := exbind_eq_ok h
        dsimp only at h
        obtain ⟨_, hlen, hle⟩ := readN_ok_length (need_eq_ok hm)
        cases h
        simp only [List.length_cons]
        omega
      case _ =>  -- 101
        obtain ⟨⟨node, r1⟩, hn, h⟩ := exbind_eq_ok h
        dsimp only at h
        have h1 := decodeT_consume host fuel _ _ _ hn
        obtain ⟨⟨b, r2⟩, hm, h⟩ := exbind_eq_ok h
        dsimp only at h
        obtain ⟨_, hlen, hle⟩ := readN_ok_length (need_eq_ok hm)
        cases h
        simp only [List.length_cons]
        omega
      case _ =>  -- 102
        obtain ⟨⟨node, r1⟩, hn, h⟩ := exbind_eq_ok h
        dsimp only at h
        have h1 := decodeT_consume host fuel _ _ _ hn
        obtain ⟨⟨b, r2⟩, hm, h⟩ := exbind_eq_ok h
        dsimp only at h
        obtain ⟨_, hlen, hle⟩ := readN_ok_length (need_eq_ok hm)
        cases h
        simp only [List.length_cons]
        omega
      case _ =>  -- 114
        obtain ⟨⟨nb, r1⟩, hm, h⟩ := exbind_eq_ok h
        dsimp only at h
        obtain ⟨_, hlen, hle⟩ := readN_ok_length (need_eq_ok hm)
        obtain ⟨⟨node, r2⟩, hn, h⟩ := exbind_eq_ok h
        dsimp only at h
        have h1 := decodeT_consume host fuel _ _ _ hn
        obtain ⟨⟨b, r3⟩, hm2, h⟩ := exbind_eq_ok h
        dsimp only at h
        obtain ⟨_, hlen2, hle2⟩ := readN_ok_length (need_eq_ok hm2)
        cases h
        simp only [List.length_cons]
        omega
      case _ =>  -- 113
        obtain ⟨⟨m1, r1⟩, ha, h⟩ := exbind_eq_ok h
        dsimp only at h
        have h1 := decodeT_consume host fuel _ _ _ ha
        obtain ⟨⟨f1, r2⟩, hb, h⟩ := exbind_eq_ok h
        dsimp only at h
        have h2 := decodeT_consume host fuel _ _ _ hb
        obtain ⟨⟨a1, r3⟩, hc, h⟩ := exbind_eq_ok h
        dsimp only at h
        have h3 := decodeT_consume host fuel _ _ _ hc
        cases h
        simp only [List.length_cons]
        omega
      case _ =>  -- default
        cases h

theorem decodeS_consume (host : Host) :
    ∀ (fuel : Nat) (n : Nat) (s : List Nat) (ts : List Term) (r : List Nat),
      decodeS host fuel n s = .ok (ts, r) → r.length ≤ s.length
  | 0, n, s, ts, r, h => by
    simp [decodeS] at h
  | fuel + 1, n, s, ts, r, h => by
    cases n with
    | zero =>
      simp only [decodeS] at h
      cases h
      exact le_refl _
    | succ n =>
      simp only [decodeS] at h
      obtain ⟨⟨t, r1⟩, ht, h⟩ := exbind_eq_ok h
      dsimp only at h
      have h1 := decodeT_consume host fuel _ _ _ ht
      obtain ⟨⟨ts2, r2⟩, hs, h⟩ := exbind_eq_ok h
      dsimp only at h
      have h2 := decodeS_consume host fuel _ _ _ _ hs
      cases h
      omega

end

/-! ### Fuel sufficiency: with fuel at least twice the input length plus one,
the decoder never reports out-of-fuel -/

mutual

theorem decodeT_noFuel (host : Host) :
    ∀ (fuel : Nat) (s : List Nat), 2 * s.length + 1 ≤ fuel →
      decodeT host fuel s = .error .fuelOut → False
  | 0, s, hf, h => by omega
  | fuel + 1, s, hf, h => by
    cases s with
    | nil => simp [decodeT] at h
    | cons tag tail =>
      simp only [List.length_cons] at hf
      simp only [decodeT] at h
      split at h
      case _ =>  -- 97
        rcases exbind_eq_error h with hm | ⟨⟨a, b⟩, hm, h⟩
        · obtain ⟨_, he⟩ := need_eq_error hm
          simp at he
        · dsimp only at h
          simp at h
      case _ =>  -- 98
        rcases exbind_eq_error h with hm | ⟨⟨a, b⟩, hm, h⟩
        · obtain ⟨_, he⟩ := need_eq_error hm
          simp at he
        · dsimp only at h
          simp at h
      case _ =>  -- 106
        simp at h
      case _ =>  -- 107
        rcases exbind_eq_error h with hm | ⟨⟨a, b⟩, hm, h⟩
        · obtain ⟨_, he⟩ := need_eq_error hm
          simp at he
        · dsimp only at h
          rcases exbind_eq_error h with hm2 | ⟨⟨a2, b2⟩, hm2, h⟩
          · obtain ⟨_, he⟩ := need_eq_error hm2
            simp at he
          · dsimp only at h
            simp at h
      case _ =>  -- 108
        rcases exbind_eq_error h with hm | ⟨⟨lb, r1⟩, hm, h⟩
        · obtain ⟨_, he⟩ := need_eq_error hm
          simp at he
        · dsimp only at h
          obtain ⟨_, hlen, hle⟩ := readN_ok_length (need_eq_ok hm)
          rcases exbind_eq_error h with hs | ⟨⟨items, r2⟩, hs, h⟩
          · exact decodeS_noFuel host fuel (beVal lb) r1 (by omega) hs
          · dsimp only at h
            have hc := decodeS_consume host fuel _ _ _ _ hs
            rcases exbind_eq_error h with ht | ⟨⟨ig, r3⟩, ht, h⟩
            · exact decodeT_noFuel host fuel r2 (by omega) ht
            · dsimp only at h
              simp at h
      case _ =>  -- 109
        rcases exbind_eq_error h with hm | ⟨⟨a, b⟩, hm, h⟩
        · obtain ⟨_, he⟩ := need_eq_error hm
          simp at he
        · dsimp only at h
          rcases exbind_eq_error h with hm2 | ⟨⟨a2, b2⟩, hm2, h⟩
          · obtain ⟨_, he⟩ := need_eq_error hm2
            simp at he
          · dsimp only at h
            simp at h
      case _ =>  -- 100
        rcases exbind_eq_error h with hm | ⟨⟨a, b⟩, hm, h⟩
        · obtain ⟨_, he⟩ := need_eq_error hm
          simp at he
        · dsimp only at h
          rcases exbind_eq_error h with hm2 | ⟨⟨a2, b2⟩, hm2, h⟩
          · obtain ⟨_, he⟩ := need_eq_error hm2
            simp at he
          · dsimp only at h
            split at h <;> [skip; split at h] <;> [skip; skip; split at h] <;>
              simp at h
      case _ =>  -- 104
        rcases exbind_eq_error h with hm | ⟨⟨ab, r1⟩, hm, h⟩
        · obtain ⟨_, he⟩ := need_eq_error hm
          simp at he
        · dsimp only at h
          obtain ⟨_, hlen, hle⟩ := readN_ok_length (need_eq_ok hm)
          rcases exbind_eq_error h with hs | ⟨⟨items, r2⟩, hs, h⟩
          · exact decodeS_noFuel host fuel (beVal ab) r1 (by omega) hs
          · dsimp only at h
            unfold finishTuple at h
            split at h
            · split at h
              · split at h <;> simp at h
              · simp at h
            · simp at h
      case _ =>  -- 105
        rcases exbind_eq_error h with hm | ⟨⟨ab, r1⟩, hm, h⟩
        · obtain ⟨_, he⟩ := need_eq_error hm
          simp at he
        · dsimp only at h
          obtain ⟨_, hlen, hle⟩ := readN_ok_length (need_eq_ok hm)
          rcases exbind_eq_error h with hs | ⟨⟨items, r2⟩, hs, h⟩
          · exact decodeS_noFuel host fuel (beVal ab) r1 (by omega) hs
          · dsimp only at h
            unfold finishTuple at h
            split at h
            · split at h
              · split at h <;> simp at h
              · simp at h
            · simp at h
      case _ =>  -- 70
        split at h
        · rcases exbind_eq_error h with hm | ⟨⟨b2, r2⟩, hm, h⟩
          · simp at hm
          · dsimp only at h
            simp at h
        · rcases exbind_eq_error h with hm | ⟨⟨b2, r2⟩, hm, h⟩
          · simp at hm
          · simp at hm
      case _ =>  -- 99
        split at h <;> simp at h
      case _ =>  -- 110
        rcases exbind_eq_error h with hm | ⟨⟨a, b⟩, hm, h⟩
        · obtain ⟨_, he⟩ := need_eq_error hm
          simp at he
        · dsimp only at h
          rcases exbind_eq_error h with hm2 | ⟨⟨a2, b2⟩, hm2, h⟩
          · obtain ⟨_, he⟩ := need_eq_error hm2
            simp at he
          · dsimp only at h
            simp at h
      case _ =>  -- 111
        rcases exbind_eq_error h with hm | ⟨⟨a, b⟩, hm, h⟩
        · obtain ⟨_, he⟩ := need_eq_error hm
          simp at he
        · dsimp only at h
          rcases exbind_eq_error h with hm2 | ⟨⟨a2, b2⟩, hm2, h⟩
          · obtain ⟨_, he⟩ := need_eq_error hm2
            simp at he
          · dsimp only at h
            simp at h
      case _ =>  -- 77
        rcases exbind_eq_error h with hm | ⟨⟨a, b⟩, hm, h⟩
        · obtain ⟨_, he⟩ := need_eq_error hm
          simp at he
        · dsimp only at h
          rcases exbind_eq_error h with hm2 | ⟨⟨a2, b2⟩, hm2, h⟩
          · obtain ⟨_, he⟩ := need_eq_error hm2
            simp at he
          · dsimp only at h
            simp at h
      case _ =>  -- 103
        rcases exbind_eq_error h with hn | ⟨⟨node, r1⟩, hn, h⟩
        · exact decodeT_noFuel host fuel tail (by omega) hn
        · dsimp only at h
          rcases exbind_eq_error h with hm | ⟨⟨b, r2⟩, hm, h⟩
          · obtain ⟨_, he⟩ := need_eq_error hm
            simp at he
          · dsimp only at h
            simp at h
      case _ =>  -- 101
        rcases exbind_eq_error h with hn | ⟨⟨node, r1⟩, hn, h⟩
        · exact decodeT_noFuel host fuel tail (by omega) hn
        · dsimp only at h
          rcases exbind_eq_error h with hm | ⟨⟨b, r2⟩, hm, h⟩
          · obtain ⟨_, he⟩ := need_eq_error hm
            simp at he
          · dsimp only at h
            simp at h
      case _ =>  -- 102
        rcases exbind_eq_error h with hn | ⟨⟨node, r1⟩, hn, h⟩
        · exact decodeT_noFuel host fuel tail (by omega) hn
        · dsimp only at h
          rcases exbind_eq_error h with hm | ⟨⟨b, r2⟩, hm, h⟩
          · obtain ⟨_, he⟩ := need_eq_error hm
            simp at he
          · dsimp only at h
            simp at h
      case _ =>  -- 114
        rcases exbind_eq_error h with hm | ⟨⟨nb, r1⟩, hm, h⟩
        · obtain ⟨_, he⟩ := need_eq_error hm
          simp at he
        · dsimp only at h
          obtain ⟨_, hlen, hle⟩ := readN_ok_length (need_eq_ok hm)
          rcases exbind_eq_error h with hn | ⟨⟨node, r2⟩, hn, h⟩
          · exact decodeT_noFuel host fuel r1 (by omega) hn
          · dsimp only at h
            rcases exbind_eq_error h with hm2 | ⟨⟨b, r3⟩, hm2, h⟩
            · obtain ⟨_, he⟩ := need_eq_error hm2
              simp at he
            · dsimp only at h
              simp at h
      case _ =>  -- 113
        rcases exbind_eq_error h with ha | ⟨⟨m1, r1⟩, ha, h⟩
        · exact decodeT_noFuel host fuel tail (by omega) ha
        · dsimp only at h
          have h1 := decodeT_consume host fuel _ _ _ ha
          rcases exbind_eq_error h with hb | ⟨⟨f1, r2⟩, hb, h⟩
          · exact decodeT_noFuel host fuel r1 (by omega) hb
          · dsimp only at h
            have h2 := decodeT_consume host fuel _ _ _ hb
            rcases exbind_eq_error h with hc | ⟨⟨a1, r3⟩, hc, h⟩
            · exact decodeT_noFuel host fuel r2 (by omega) hc
            · dsimp only at h
              simp at h
      case _ =>  -- default
        simp at h

theorem decodeS_noFuel (host : Host) :
    ∀ (fuel : Nat) (n : Nat) (s : List Nat), 2 * s.length + 2 ≤ fuel →
      decodeS host fuel n s = .error .fuelOut → False
  | 0, n, s, hf, h => by omega
  | fuel + 1, n, s, hf, h => by
    cases n with
    | zero => simp [decodeS] at h
    | succ n =>
      simp only [decodeS] at h
      rcases exbind_eq_error h with ht | ⟨⟨t, r1⟩, ht, h⟩
      · exact decodeT_noFuel host fuel s (by omega) ht
      · dsimp only at h
        have h1 := decodeT_consume host fuel _ _ _ ht
        rcases exbind_eq_error h with hs | ⟨⟨ts2, r2⟩, hs, h⟩
        · exact decodeS_noFuel host fuel n r1 (by omega) hs
        · dsimp only at h
          simp at h

end

/-! ### Big-integer magnitude bytes -/

theorem shiftLeft_or_byte (n i : Nat) (h : i < 256) :
    (n <<< 8) ||| i = n * 256 + i := by
  apply Nat.eq_of_testBit_eq
  intro k
  rw [Nat.testBit_lor, Nat.testBit_shiftLeft]
  rcases Nat.lt_or_ge k 8 with hk | hk
  · rw [decide_eq_false (by omega), Bool.false_and, Bool.false_or,
      Nat.testBit_to_div_mod, Nat.testBit_to_div_mod]
    congr 1
    interval_cases k <;> norm_num <;> omega
  · rw [decide_eq_true (by omega : k ≥ 8), Bool.true_and]
    have e1 : i.testBit k = false := by
      apply Nat.testBit_lt_two_pow
      calc i < 256 := h
        _ = 2 ^ 8 := by norm_num
        _ ≤ 2 ^ k := Nat.pow_le_pow_right (by norm_num) hk
    rw [e1, Bool.or_false, Nat.testBit_to_div_mod, Nat.testBit_to_div_mod]
    have e3 : (2:Nat) ^ k = 2 ^ 8 * 2 ^ (k - 8) := by
      rw [← pow_add]; congr 1; omega
    have e2 : (n * 256 + i) / 2 ^ k = n / 2 ^ (k - 8) := by
      rw [e3, ← Nat.div_div_eq_div_mul]
      have e4 : (n * 256 + i) / 2 ^ 8 = n := by
        have e5 : (2:Nat) ^ 8 = 256 := by norm_num
        rw [e5]; omega
      rw [e4]
    rw [e2]

theorem bigVal_nil : bigVal [] = 0 := rfl

theorem bigVal_cons (x : Nat) (l : List Nat) (hx : x < 256) :
    bigVal (x :: l) = bigVal l * 256 + x := by
  unfold bigVal
  rw [List.reverse_cons, List.foldl_append]
  simp only [List.foldl_cons, List.foldl_nil]
  exact shiftLeft_or_byte _ x hx

theorem magBytesF_zero (fuel : Nat) : magBytesF fuel 0 = [] := by
  cases fuel <;> simp [magBytesF]

theorem magBytesF_congr :
    ∀ (m f1 f2 : Nat), m ≤ f1 → m ≤ f2 → magBytesF f1 m = magBytesF f2 m := by
  intro m
  induction m using Nat.strong_induction_on with
  | _ m ih =>
    intro f1 f2 h1 h2
    rcases Nat.eq_zero_or_pos m with hm | hm
    · subst hm
      rw [magBytesF_zero, magBytesF_zero]
    · obtain ⟨g1, rfl⟩ : ∃ g1, f1 = g1 + 1 := ⟨f1 - 1, by omega⟩
      obtain ⟨g2, rfl⟩ : ∃ g2, f2 = g2 + 1 := ⟨f2 - 1, by omega⟩
      simp only [magBytesF, if_neg (by omega : ¬ m = 0)]
      congr 1
      have hs : m >>> 8 = m / 256 := by omega
      rw [hs]
      exact ih (m / 256) (by omega) g1 g2 (by omega) (by omega)

theorem magBytes_eq (m : Nat) :
    magBytes m = if m = 0 then [] else (m % 256) :: magBytes (m / 256) := by
  rcases Nat.eq_zero_or_pos m with hm | hm
  · subst hm; rfl
  · rw [if_neg (by omega)]
    unfold magBytes
    obtain ⟨g, rfl⟩ : ∃ g, m = g + 1 := ⟨m - 1, by omega⟩
    simp only [magBytesF, if_neg (by omega : ¬ g + 1 = 0)]
    have ha : (g + 1) &&& 255 = (g + 1) % 256 := Nat.and_pow_two_sub_one_eq_mod (g + 1) 8
    have hs : (g + 1) >>> 8 = (g + 1) / 256 := by omega
    rw [ha, hs]
    congr 1
    exact magBytesF_congr ((g + 1) / 256) g ((g + 1) / 256) (by omega) (le_refl _)

theorem bigVal_magBytes (m : Nat) : bigVal (magBytes m) = m := by
  induction m using Nat.strong_induction_on with
  | _ m ih =>
    rw [magBytes_eq]
    rcases Nat.eq_zero_or_pos m with hm | hm
    · simp [hm, bigVal]
    · rw [if_neg (by omega), bigVal_cons _ _ (Nat.mod_lt m (by norm_num))]
      rw [ih (m / 256) (Nat.div_lt_self hm (by norm_num))]
      omega

theorem magBytes_ne_nil (m : Nat) (hm : m ≠ 0) : magBytes m ≠ [] := by
  rw [magBytes_eq, if_neg hm]
  simp

theorem magBytes_getLast (m : Nat) (hm : m ≠ 0) :
    (magBytes m).getLast? ≠ some 0 := by
  induction m using Nat.strong_induction_on with
  | _ m ih =>
    rw [magBytes_eq, if_neg hm]
    rcases Nat.eq_zero_or_pos (m / 256) with hq | hq
    · rw [hq]
      have : magBytes 0 = [] := rfl
      rw [this]
      simp only [List.getLast?_singleton, ne_eq, Option.some.injEq]
      omega
    · have h2 : magBytes (m / 256) = m / 256 % 256 :: magBytes (m / 256 / 256) := by
        rw [magBytes_eq, if_neg (by omega)]
      rw [h2, List.getLast?_cons_cons, ← h2]
      exact ih (m / 256) (Nat.div_lt_self (by omega) (by norm_num)) (by omega)

theorem bytesOk_magBytes (m : Nat) : bytesOk (magBytes m) = true := by
  induction m using Nat.strong_induction_on with
  | _ m ih =>
    rw [magBytes_eq]
    rcases Nat.eq_zero_or_pos m with hm | hm
    · simp [hm, bytesOk]
    · rw [if_neg (by omega)]
      simp only [bytesOk, List.all_cons, Bool.and_eq_true, decide_eq_true_eq]
      refine ⟨Nat.mod_lt m (by norm_num), ?_⟩
      exact ih (m / 256) (Nat.div_lt_self hm (by norm_num))

/-! ### Integer wire formats -/

theorem int32_decode (n : Int) (h1 : -2147483648 ≤ n) (h2 : n ≤ 2147483647) :
    (if ((n % 4294967296).toNat) < 2147483648 then (((n % 4294967296).toNat : Nat) : Int)
     else (((n % 4294967296).toNat : Nat) : Int) - 4294967296) = n := by
  split <;> omega

/-! ### Shape of encoder output -/

theorem encT_shape (t : Term) (b : List Nat) (h : encT t = .ok b) :
    ∃ c cs, b = c :: cs ∧ c ≠ 80 := by
  cases t with
  | tuple items =>
    unfold encT at h
    dsimp only at h
    split at h
    · rcases exbind_eq_ok h with ⟨hd, hhd, h⟩
      cases hhd
      rcases exbind_eq_ok h with ⟨body, hb, h⟩
      cases h
      exact ⟨104, _, rfl, by omega⟩
    · split at h
      · rcases exbind_eq_ok h with ⟨hd, hhd, h⟩
        cases hhd
        rcases exbind_eq_ok h with ⟨body, hb, h⟩
        cases h
        exact ⟨105, _, rfl, by omega⟩
      · rcases exbind_eq_ok h with ⟨hd, hhd, h⟩
        cases hhd
  | list items =>
    unfold encT at h
    split at h
    · cases h; exact ⟨106, _, rfl, by omega⟩
    · dsimp only at h
      split at h
      · cases h; exact ⟨107, _, rfl, by omega⟩
      · split at h
        · cases h
        · rcases exbind_eq_ok h with ⟨body, hb, h⟩
          cases h
          exact ⟨108, _, rfl, by omega⟩
  | atom name =>
    unfold encT at h
    split at h
    · cases h; exact ⟨100, _, rfl, by omega⟩
    · cases h
  | bits d k =>
    unfold encT at h
    split at h
    · cases h; exact ⟨77, _, rfl, by omega⟩
    · cases h
  | bin d =>
    unfold encT at h
    split at h
    · cases h
    · cases h; exact ⟨109, _, rfl, by omega⟩
  | bool v =>
    unfold encT at h
    cases v
    · cases h; exact ⟨100, _, rfl, by omega⟩
    · cases h; exact ⟨100, _, rfl, by omega⟩
  | int n =>
    unfold encT at h
    split at h
    · cases h; exact ⟨97, _, rfl, by omega⟩
    · split at h
      · cases h; exact ⟨98, _, rfl, by omega⟩
      · dsimp only at h
        split at h
        · cases h; exact ⟨110, _, rfl, by omega⟩
        · split at h
          · cases h; exact ⟨111, _, rfl, by omega⟩
          · cases h
  | float p =>
    unfold encT at h
    cases h
    exact ⟨70, _, rfl, by omega⟩
  | null =>
    unfold encT at h
    cases h
    exact ⟨100, _, rfl, by omega⟩
  | pid node id serial c =>
    unfold encT at h
    rcases exbind_eq_ok h with ⟨nb, hn, h⟩
    split at h
    · cases h
    · split at h
      · cases h
      · cases h; exact ⟨103, _, rfl, by omega⟩
  | ref node id c =>
    unfold encT at h
    rcases exbind_eq_ok h with ⟨nb, hn, h⟩
    dsimp only at h
    split at h
    · cases h
    · split at h
      · cases h
      · cases h; exact ⟨114, _, rfl, by omega⟩
  | port node id c =>
    unfold encT at h
    rcases exbind_eq_ok h with ⟨nb, hn, h⟩
    split at h
    · cases h
    · split at h
      · cases h
      · cases h; exact ⟨102, _, rfl, by omega⟩
  | exp m f a =>
    unfold encT at h
    rcases exbind_eq_ok h with ⟨mb, hm, h⟩
    rcases exbind_eq_ok h with ⟨fb, hf, h⟩
    rcases exbind_eq_ok h with ⟨ab, ha, h⟩
    cases h
    exact ⟨113, _, rfl, by omega⟩

/-! ### Round-trip: decoding an encoder output at any point of a stream -/

theorem ok_bind {ε α β : Type} (a : α) (f : α → Except ε β) :
    (Except.ok a : Except ε α) >>= f = f a := rfl

theorem error_bind {ε α β : Type} (e : ε) (f : α → Except ε β) :
    (Except.error e : Except ε α) >>= f = .error e := rfl

theorem need_readN_exact {n : Nat} (a r : List Nat) (h : a.length = n) :
    need (readN n (a ++ r)) = .ok (a, r) := by rw [readN_exact a r h]; rfl

theorem finishTuple_not_pickle (host : Host) (items : List Term) (r : List Nat)
    (h : isPickle2 items = false) : finishTuple host items r = .ok (.tuple items, r) := by
  unfold finishTuple
  split
  · rename_i a x
    simp only [isPickle2] at h
    rw [if_neg (by simp [h])]
  · rfl

theorem stringable_roundtrip (l : List Term) (hwf : wfL l = true)
    (hs : l.all stringableElem = true) :
    (l.map byteOf).map (fun (i : Nat) => Term.int (i : Int)) = l := by
  induction l with
  | nil => rfl
  | cons t ts ih =>
    simp only [wfL, Bool.and_eq_true] at hwf
    simp only [List.all_cons, Bool.and_eq_true] at hs
    simp only [List.map_cons]
    rw [ih hwf.2 hs.2]
    congr 1
    cases t with
    | int n =>
      simp only [stringableElem, Bool.and_eq_true, decide_eq_true_eq] at hs
      simp only [byteOf]
      rw [Int.toNat_of_nonneg hs.1.1]
    | bool v => simp [wfT] at hwf
    | _ => simp [stringableElem] at hs

theorem pid_fields (id serial : List Nat) (c : Nat) (hid : id.length = 4)
    (hserial : serial.length = 4) :
    (id ++ serial ++ [c]).take 4 = id ∧
    ((id ++ serial ++ [c]).drop 4).take 4 = serial ∧
    beVal ((id ++ serial ++ [c]).drop 8) = c := by
  refine ⟨?_, ?_, ?_⟩
  · rw [List.append_assoc, List.take_left' hid]
  · rw [List.append_assoc, List.drop_left' hid, List.take_left' hserial]
  · rw [show (8:Nat) = (id ++ serial).length by simp [hid, hserial], List.drop_left]
    exact beVal_singleton c

mutual

theorem encT_decodeT (host : Host) :
    ∀ (t : Term) (b : List Nat), wfT t = true → encT t = .ok b →
      ∀ (rest : List Nat) (g : Nat),
        decodeT host g (b ++ rest) = .ok (t, rest) ∨
        decodeT host g (b ++ rest) = .error .fuelOut
  | .int n, b, hwf, he, rest, g => by
    unfold encT at he
    split at he
    case isTrue hrange =>
      cases he
      simp only [Bool.and_eq_true, decide_eq_true_eq] at hrange
      cases g with
      | zero => exact .inr rfl
      | succ g =>
        left
        simp only [decodeT, List.cons_append, List.nil_append]
        rw [← List.singleton_append, need_readN_exact [n.toNat] rest (by simp), ok_bind]
        dsimp only
        rw [beVal_singleton, Int.toNat_of_nonneg hrange.1]
    case isFalse hout =>
      split at he
      case isTrue hr32 =>
        cases he
        simp only [Bool.and_eq_true, decide_eq_true_eq] at hr32
        cases g with
        | zero => exact .inr rfl
        | succ g =>
          left
          simp only [decodeT, List.cons_append]
          rw [need_readN_exact (beBytes 4 (n % 4294967296).toNat) rest
            (beBytes_length 4 _), ok_bind]
          dsimp only
          have hu : (n % 4294967296).toNat < 256 ^ 4 := by norm_num; omega
          rw [beVal_beBytes 4 _ hu, int32_decode n hr32.1 hr32.2]
      case isFalse hout32 =>
        dsimp only at he
        split at he
        case isTrue hlen =>
          cases he
          cases g with
          | zero => exact .inr rfl
          | succ g =>
            left
            simp only [decodeT, List.cons_append]
            rw [show ((magBytes n.natAbs).length :: (if 0 ≤ n then 0 else 1) ::
                (magBytes n.natAbs ++ rest)) =
              [(magBytes n.natAbs).length, if 0 ≤ n then 0 else 1] ++
                (magBytes n.natAbs ++ rest) from rfl]
            rw [need_readN_exact _ _ (by simp), ok_bind]
            dsimp only
            rw [show ([(magBytes n.natAbs).length,
                if 0 ≤ n then 0 else 1].take 1) = [(magBytes n.natAbs).length] from rfl]
            rw [beVal_singleton, need_readN_exact (magBytes n.natAbs) rest rfl, ok_bind]
            dsimp only
            rw [show ([(magBytes n.natAbs).length,
                if 0 ≤ n then 0 else 1].drop 1) = [if 0 ≤ n then 0 else 1] from rfl]
            rw [beVal_singleton, bigVal_magBytes]
            rcases le_or_lt 0 n with hn | hn
            · rw [if_pos hn, if_neg (by omega : ¬ ((0:Nat) ≠ 0))]
              have habs : ((n.natAbs : Nat) : Int) = n := by omega
              rw [habs]
            · rw [if_neg (by omega : ¬ (0:Int) ≤ n), if_pos (by omega : (1:Nat) ≠ 0)]
              have habs : (-((n.natAbs : Nat) : Int)) = n := by omega
              rw [habs]
        case isFalse hlen =>
          split at he
          case isTrue hlen32 =>
            cases he
            cases g with
            | zero => exact .inr rfl
            | succ g =>
              left
              simp only [decodeT, List.cons_append, List.append_assoc]
              rw [show (beBytes 4 (magBytes n.natAbs).length ++
                  ((if 0 ≤ n then 0 else 1) :: (magBytes n.natAbs ++ rest))) =
                (beBytes 4 (magBytes n.natAbs).length ++ [if 0 ≤ n then 0 else 1]) ++
                  (magBytes n.natAbs ++ rest) by simp]
              rw [need_readN_exact _ _ (by simp [beBytes_length]), ok_bind]
              dsimp only
              rw [List.take_left' (beBytes_length 4 _), List.drop_left' (beBytes_length 4 _)]
              rw [beVal_beBytes 4 _ (by norm_num; omega),
                need_readN_exact (magBytes n.natAbs) rest rfl, ok_bind]
              dsimp only
              rw [beVal_singleton, bigVal_magBytes]
              rcases le_or_lt 0 n with hn | hn
              · rw [if_pos hn, if_neg (by omega : ¬ ((0:Nat) ≠ 0))]
                have habs : ((n.natAbs : Nat) : Int) = n := by omega
                rw [habs]
              · rw [if_neg (by omega : ¬ (0:Int) ≤ n), if_pos (by omega : (1:Nat) ≠ 0)]
                have habs : (-((n.natAbs : Nat) : Int)) = n := by omega
                rw [habs]
          case isFalse => cases he
  | .float p, b, hwf, he, rest, g => by
    unfold encT at he
    cases he
    simp only [wfT, decide_eq_true_eq] at hwf
    cases g with
    | zero => exact .inr rfl
    | succ g =>
      left
      simp only [decodeT, List.cons_append]
      rw [readN_exact (beBytes 8 p) rest (beBytes_length 8 p)]
      dsimp only
      rw [ok_bind]
      dsimp only
      rw [beVal_beBytes 8 p (by norm_num; omega)]
  | .atom name, b, hwf, he, rest, g => by
    unfold encT at he
    simp only [wfT, Bool.and_eq_true, decide_eq_true_eq, ne_eq] at hwf
    obtain ⟨⟨⟨⟨hok, hlen⟩, ht⟩, hf⟩, hn⟩ := hwf
    split at he
    case isTrue =>
      cases he
      cases g with
      | zero => exact .inr rfl
      | succ g =>
        left
        simp only [decodeT, List.cons_append, List.append_assoc]
        rw [need_readN_exact (beBytes 2 name.length) _ (beBytes_length 2 _), ok_bind]
        dsimp only
        rw [beVal_beBytes 2 name.length (by norm_num; omega)]
        rw [need_readN_exact name rest rfl, ok_bind]
        dsimp only
        rw [if_neg (by simp [ht]), if_neg (by simp [hf]), if_neg (by simp [hn])]
    case isFalse h65 => omega
  | .bits d k, b, hwf, he, rest, g => by
    unfold encT at he
    simp only [wfT, Bool.and_eq_true, decide_eq_true_eq] at hwf
    obtain ⟨⟨⟨hok, hlen⟩, hk1⟩, hk8⟩ := hwf
    split at he
    case isTrue =>
      cases he
      cases g with
      | zero => exact .inr rfl
      | succ g =>
        left
        simp only [decodeT, List.cons_append, List.append_assoc]
        rw [show (beBytes 4 d.length ++ (k :: (d ++ rest))) =
          (beBytes 4 d.length ++ [k]) ++ (d ++ rest) by simp]
        rw [need_readN_exact _ _ (by simp [beBytes_length]), ok_bind]
        dsimp only
        rw [List.take_left' (beBytes_length 4 _), List.drop_left' (beBytes_length 4 _)]
        rw [beVal_beBytes 4 _ (by norm_num; omega),
          need_readN_exact d rest rfl, ok_bind]
        dsimp only
        rw [beVal_singleton]
    case isFalse hc =>
      exfalso
      simp only [Bool.and_eq_true, decide_eq_true_eq] at hc
      omega
  | .bin d, b, hwf, he, rest, g => by
    unfold encT at he
    simp only [wfT, Bool.and_eq_true, decide_eq_true_eq] at hwf
    split at he
    case isTrue hc => omega
    case isFalse hc =>
      cases he
      cases g with
      | zero => exact .inr rfl
      | succ g =>
        left
        simp only [decodeT, List.cons_append, List.append_assoc]
        rw [need_readN_exact (beBytes 4 d.length) _ (beBytes_length 4 _), ok_bind]
        dsimp only
        rw [beVal_beBytes 4 d.length (by norm_num; omega)]
        rw [need_readN_exact d rest rfl, ok_bind]
  | .list items, b, hwf, he, rest, g => by
    simp only [wfT, Bool.and_eq_true, decide_eq_true_eq] at hwf
    unfold encT at he
    split at he
    case isTrue hemp =>
      cases he
      have hni : items = [] := List.isEmpty_iff.mp hemp
      subst hni
      cases g with
      | zero => exact .inr rfl
      | succ g =>
        left
        simp only [decodeT, List.cons_append, List.nil_append]
    case isFalse hemp =>
      dsimp only at he
      split at he
      case isTrue hcond =>
        cases he
        simp only [Bool.and_eq_true, decide_eq_true_eq] at hcond
        cases g with
        | zero => exact .inr rfl
        | succ g =>
          left
          simp only [decodeT, List.cons_append, List.nil_append, List.append_assoc]
          rw [need_readN_exact (beBytes 2 items.length) _ (beBytes_length 2 _), ok_bind]
          dsimp only
          rw [beVal_beBytes 2 items.length (by norm_num; omega)]
          rw [need_readN_exact (items.map byteOf) rest (by simp), ok_bind]
          dsimp only
          rw [stringable_roundtrip items hwf.1 hcond.2]
      case isFalse hcond =>
        split at he
        case isTrue h32 => cases he
        case isFalse h32 =>
          rcases exbind_eq_ok he with ⟨body, hbody, he⟩
          cases he
          cases g with
          | zero => exact .inr rfl
          | succ g =>
            simp only [decodeT, List.cons_append, List.nil_append, List.append_assoc]
            rw [need_readN_exact (beBytes 4 items.length) _ (beBytes_length 4 _), ok_bind]
            dsimp only
            rw [beVal_beBytes 4 items.length (by norm_num; omega)]
            rcases encL_decodeS host items body hwf.1 hbody (106 :: rest) g with hok | hfl
            · rw [hok, ok_bind]
              dsimp only
              cases g with
              | zero => exact .inr rfl
              | succ g2 =>
                left
                simp only [decodeT]
                rw [ok_bind]
            · rw [hfl, error_bind]
              exact .inr rfl
  | .tuple items, b, hwf, he, rest, g => by
    simp only [wfT, Bool.and_eq_true, decide_eq_true_eq, Bool.not_eq_true'] at hwf
    obtain ⟨⟨hwl, hlen⟩, hnp⟩ := hwf
    unfold encT at he
    dsimp only at he
    split at he
    · rcases exbind_eq_ok he with ⟨hd, hhd, he⟩
      cases hhd
      rcases exbind_eq_ok he with ⟨body, hbody, he⟩
      cases he
      cases g with
      | zero => exact .inr rfl
      | succ g =>
        simp only [decodeT, List.cons_append, List.nil_append, List.append_assoc]
        rw [show (items.length :: (body ++ rest)) =
          [items.length] ++ (body ++ rest) from rfl]
        rw [need_readN_exact [items.length] _ (by simp), ok_bind]
        dsimp only
        rw [beVal_singleton]
        rcases encL_decodeS host items body hwl hbody rest g with hok | hfl
        · rw [hok, ok_bind]
          dsimp only
          rw [finishTuple_not_pickle host items rest hnp]
          exact .inl rfl
        · rw [hfl, error_bind]
          exact .inr rfl
    · rcases exbind_eq_ok he with ⟨hd, hhd, he⟩
      cases hhd
      rcases exbind_eq_ok he with ⟨body, hbody, he⟩
      cases he
      cases g with
      | zero => exact .inr rfl
      | succ g =>
        simp only [decodeT, List.cons_append, List.nil_append, List.append_assoc]
        rw [need_readN_exact (beBytes 4 items.length) _ (beBytes_length 4 _), ok_bind]
        dsimp only
        rw [beVal_beBytes 4 items.length (by norm_num; omega)]
        rcases encL_decodeS host items body hwl hbody rest g with hok | hfl
        · rw [hok, ok_bind]
          dsimp only
          rw [finishTuple_not_pickle host items rest hnp]
          exact .inl rfl
        · rw [hfl, error_bind]
          exact .inr rfl
  | .pid node id serial c, b, hwf, he, rest, g => by
    simp only [wfT, Bool.and_eq_true, decide_eq_true_eq] at hwf
    obtain ⟨⟨⟨⟨⟨hnode, hidok⟩, hid⟩, hsok⟩, hserial⟩, hc⟩ := hwf
    unfold encT at he
    rcases exbind_eq_ok he with ⟨nb, hn, he⟩
    split at he
    case isTrue h4 => exact (h4 hserial).elim
    case isFalse =>
      split at he
      case isTrue h255 => omega
      case isFalse =>
        cases he
        cases g with
        | zero => exact .inr rfl
        | succ g =>
          simp only [decodeT, List.cons_append, List.nil_append, List.append_assoc]
          rcases encT_decodeT host node nb hnode hn (id ++ (serial ++ c :: rest)) g
            with hok | hfl
          · rw [hok, ok_bind]
            dsimp only
            rw [show id ++ (serial ++ c :: rest) = (id ++ serial ++ [c]) ++ rest by simp]
            rw [need_readN_exact _ _ (by simp [hid, hserial]), ok_bind]
            dsimp only
            obtain ⟨e1, e2, e3⟩ := pid_fields id serial c hid hserial
            rw [e1, e2, e3]
            exact .inl rfl
          · rw [hfl, error_bind]
            exact .inr rfl
  | .port node id c, b, hwf, he, rest, g => by
    simp only [wfT, Bool.and_eq_true, decide_eq_true_eq] at hwf
    obtain ⟨⟨⟨hnode, hidok⟩, hid⟩, hc⟩ := hwf
    unfold encT at he
    rcases exbind_eq_ok he with ⟨nb, hn, he⟩
    split at he
    case isTrue h4 => exact (h4 hid).elim
    case isFalse =>
      split at he
      case isTrue h255 => omega
      case isFalse =>
        cases he
        cases g with
        | zero => exact .inr rfl
        | succ g =>
          simp only [decodeT, List.cons_append, List.nil_append, List.append_assoc]
          rcases encT_decodeT host node nb hnode hn (id ++ c :: rest) g with hok | hfl
          · rw [hok, ok_bind]
            dsimp only
            rw [show id ++ c :: rest = (id ++ [c]) ++ rest by simp]
            rw [need_readN_exact _ _ (by simp [hid]), ok_bind]
            dsimp only
            rw [List.take_left' hid, List.drop_left' hid, beVal_singleton]
            exact .inl rfl
          · rw [hfl, error_bind]
            exact .inr rfl
  | .ref node id c, b, hwf, he, rest, g => by
    simp only [wfT, Bool.and_eq_true, decide_eq_true_eq] at hwf
    obtain ⟨⟨⟨⟨⟨hnode, hidok⟩, hmod⟩, hmin⟩, hdiv⟩, hc⟩ := hwf
    unfold encT at he
    rcases exbind_eq_ok he with ⟨nb, hn, he⟩
    dsimp only at he
    split at he
    case isTrue h65 => omega
    case isFalse =>
      split at he
      case isTrue h255 => omega
      case isFalse =>
        cases he
        cases g with
        | zero => exact .inr rfl
        | succ g =>
          simp only [decodeT, List.cons_append, List.nil_append, List.append_assoc]
          rw [need_readN_exact (beBytes 2 (id.length / 4)) _ (beBytes_length 2 _), ok_bind]
          dsimp only
          rcases encT_decodeT host node nb hnode hn (c :: (id ++ rest)) g with hok | hfl
          · rw [hok, ok_bind]
            dsimp only
            rw [beVal_beBytes 2 (id.length / 4) (by norm_num; omega)]
            rw [show c :: (id ++ rest) = (c :: id) ++ rest from rfl]
            rw [need_readN_exact (c :: id) rest (by simp; omega), ok_bind]
            dsimp only
            rw [show (c :: id).drop 1 = id from rfl,
              show (c :: id).take 1 = [c] from rfl, beVal_singleton]
            exact .inl rfl
          · rw [hfl, error_bind]
            exact .inr rfl
  | .exp m1 f1 a1, b, hwf, he, rest, g => by
    simp only [wfT, Bool.and_eq_true] at hwf
    obtain ⟨⟨hm, hf⟩, ha⟩ := hwf
    unfold encT at he
    rcases exbind_eq_ok he with ⟨mb, hmb, he⟩
    rcases exbind_eq_ok he with ⟨fb, hfb, he⟩
    rcases exbind_eq_ok he with ⟨ab, hab, he⟩
    cases he
    cases g with
    | zero => exact .inr rfl
    | succ g =>
      simp only [decodeT, List.cons_append, List.nil_append, List.append_assoc]
      rcases encT_decodeT host m1 mb hm hmb (fb ++ (ab ++ rest)) g with h1 | h1
      · rw [h1, ok_bind]
        dsimp only
        rcases encT_decodeT host f1 fb hf hfb (ab ++ rest) g with h2 | h2
        · rw [h2, ok_bind]
          dsimp only
          rcases encT_decodeT host a1 ab ha hab rest g with h3 | h3
          · rw [h3, ok_bind]
            exact .inl rfl
          · rw [h3, error_bind]
            exact .inr rfl
        · rw [h2, error_bind]
          exact .inr rfl
      · rw [h1, error_bind]
        exact .inr rfl
  | .bool v, b, hwf, he, rest, g => by
    simp [wfT] at hwf
  | .null, b, hwf, he, rest, g => by
    simp [wfT] at hwf

theorem encL_decodeS (host : Host) :
    ∀ (l : List Term) (body : List Nat), wfL l = true → encL l = .ok body →
      ∀ (rest : List Nat) (g : Nat),
        decodeS host g l.length (body ++ rest) = .ok (l, rest) ∨
        decodeS host g l.length (body ++ rest) = .error .fuelOut
  | [], body, hwf, he, rest, g => by
    unfold encL at he
    cases he
    cases g with
    | zero => exact .inr rfl
    | succ g =>
      left
      simp only [decodeS, List.nil_append, List.length_nil]
  | t :: ts, body, hwf, he, rest, g => by
    unfold encL at he
    rcases exbind_eq_ok he with ⟨b1, hb1, he⟩
    rcases exbind_eq_ok he with ⟨brest, hbr, he⟩
    cases he
    simp only [wfL, Bool.and_eq_true] at hwf
    cases g with
    | zero => exact .inr rfl
    | succ g =>
      simp only [decodeS, List.length_cons, List.append_assoc]
      rcases encT_decodeT host t b1 hwf.1 hb1 (brest ++ rest) g with hok | hfl
      · rw [hok, ok_bind]
        dsimp only
        rcases encL_decodeS host ts brest hwf.2 hbr rest g with hok2 | hfl2
        · rw [hok2, ok_bind]
          exact .inl rfl
        · rw [hfl2, error_bind]
          exact .inr rfl
      · rw [hfl, error_bind]
        exact .inr rfl

end

/-! ### Entry-point framing -/

/-- The deflate stream contract of `zlib`: inflating a complete deflate
stream consumes exactly the stream and reports the remaining input as
`unused_data`. -/
def GoodZlib (host : Host) : Prop :=
  ∀ lvl p u, host.decompress (host.compress lvl p ++ u) = (p, u)

theorem decode_frame_uncompressed (host : Host) (t : Term) (b s : List Nat)
    (hwf : wfT t = true) (hb : encT t = .ok b) :
    decode host ((131 :: b) ++ s) = .ok (t, s) := by
  obtain ⟨c, cs, hshape, hc⟩ := encT_shape t b hb
  subst hshape
  show decode host (131 :: (c :: cs ++ s)) = .ok (t, s)
  unfold decode
  dsimp only
  rw [if_neg (by omega : ¬ ((131:Nat) ≠ 131))]
  rw [if_neg (by simp [hc] : ¬ (List.take 1 (c :: cs ++ s) = [80]))]
  rcases encT_decodeT host t (c :: cs) hwf hb s (fuelFor (c :: cs ++ s)) with hok | hfl
  · rw [List.cons_append] at hok
    exact hok
  · exfalso
    rw [List.cons_append] at hfl
    exact decodeT_noFuel host (fuelFor (c :: cs ++ s)) (c :: cs ++ s)
      (by simp [fuelFor]) hfl

/-! ### Concrete hosts used by witnesses and counterexamples -/

/-- Host whose pickle bridge and float parser always fail and whose
decompressor is the identity on its input. -/
def hostId : Host :=
  ⟨fun _ => .error (), fun _ => .error (), fun _ p => p, fun z => (z, [])⟩

/-! ### Claim C1 -/

/-- C1, amended: round-trip `decode(encode(t, off)).0 = t` holds for every
term of the §3 algebra satisfying the §3 invariants (`wfT`), i.e. for every
Atom, Integer, Float, Binary, BitBinary, List, Tuple, Pid, Port, Reference
and Export — except the two decode-remapped shapes that `wfT` excludes:
atoms named `true`/`false`/`none` (which decode to Boolean/NullSentinel)
and 2-tuples whose first element is a byte-string-like value reading
`python_pickle` (which trigger the fallback bridge on decode).  The decoded
tail is empty. -/
theorem C1_roundtrip (host : Host) (t : Term) (f : List Nat)
    (hwf : wfT t = true) (he : encode host t (.bool false) = .ok f) :
    decode host f = .ok (t, []) := by
  unfold encode at he
  rcases exbind_eq_ok he with ⟨b, hb, he⟩
  dsimp only [truthyLevel] at he
  cases he
  have h := decode_frame_uncompressed host t b [] hwf hb
  rw [List.append_nil] at h
  exact h

/-- C1 counterexample: the claim as stated is false for the atom named
`true` (its decode is the Boolean `true`, not the atom) and for the 2-tuple
`(Atom "python_pickle", Binary [0])` (its decode invokes the pickle bridge,
and with a failing bridge the decode errors instead of returning the
tuple). -/
theorem C1_counterexample :
    encode hostId (Term.atom trueName) (.bool false) =
      .ok [131, 100, 0, 4, 116, 114, 117, 101] ∧
    decode hostId [131, 100, 0, 4, 116, 114, 117, 101] = .ok (Term.bool true, []) ∧
    Term.bool true ≠ Term.atom trueName ∧
    encode hostId (Term.tuple [Term.atom pickleName, Term.bin [0]]) (.bool false) =
      .ok [131, 104, 2, 100, 0, 13, 112, 121, 116, 104, 111, 110, 95, 112, 105,
        99, 107, 108, 101, 109, 0, 0, 0, 1, 0] ∧
    decode hostId [131, 104, 2, 100, 0, 13, 112, 121, 116, 104, 111, 110, 95,
      112, 105, 99, 107, 108, 101, 109, 0, 0, 0, 1, 0] = .error .bridgeFailed :=
  ⟨rfl, rfl, fun h => Term.noConfusion h, rfl, rfl⟩

/-- C1 witness: the amended round-trip at the concrete term
`(Atom "ok", Integer 300)`. -/
theorem C1_witness :
    decode hostId [131, 104, 2, 100, 0, 2, 111, 107, 98, 0, 0, 1, 44] =
      .ok (Term.tuple [Term.atom [111, 107], Term.int 300], []) :=
  C1_roundtrip hostId (Term.tuple [Term.atom [111, 107], Term.int 300])
    [131, 104, 2, 100, 0, 2, 111, 107, 98, 0, 0, 1, 44] (by rfl) (by rfl)

/-! ### Claim C9 -/

/-- C9: for every term and every compression argument for which `encode`
succeeds, the first byte of its output is `0x83` (131), in both the
compressed and the uncompressed framing. -/
theorem C9_frame_prefix (host : Host) (t : Term) (carg : CompressArg)
    (f : List Nat) (he : encode host t carg = .ok f) : f.head? = some 131 := by
  unfold encode at he
  rcases exbind_eq_ok he with ⟨p, hp, he⟩
  rcases htl : truthyLevel carg with _ | lvl <;> rw [htl] at he
  · dsimp only at he
    cases he
    rfl
  · dsimp only at he
    split at he
    · split at he
      · cases he
        rfl
      · cases he
    · cases he
      rfl

/-- C9 witness: the prefix at a concrete compressed-requested encode. -/
theorem C9_witness : [131, 97, 0].head? = some 131 :=
  C9_frame_prefix hostId (Term.int 0) (.bool true) [131, 97, 0] (by rfl)

/-! ### Claim C4 -/

/-- Host whose compressor always returns five bytes fewer than its input
(so that the compressed frame has exactly the size of the uncompressed
one). -/
def hostPad : Host :=
  ⟨fun _ => .error (), fun _ => .error (),
    fun _ p => List.replicate (p.length - 5) 0, fun z => (z, [])⟩

/-- C4 counterexample: with a compressor output of `len(payload) - 5`
bytes, compression does not strictly reduce the frame size (both frames
have 16 bytes), yet `encode` emits the compressed framing, which differs
from `encode(t, off)` — refuting both the "only when it strictly reduces"
and the "otherwise byte-identical" parts of the claim. -/
theorem C4_counterexample :
    encode hostPad (Term.bin (List.replicate 10 0)) (.bool true) =
      .ok [131, 80, 0, 0, 0, 15, 0, 0, 0, 0, 0, 0, 0, 0, 0, 0] ∧
    encode hostPad (Term.bin (List.replicate 10 0)) (.bool false) =
      .ok [131, 109, 0, 0, 0, 10, 0, 0, 0, 0, 0, 0, 0, 0, 0, 0] ∧
    ([131, 80, 0, 0, 0, 15, 0, 0, 0, 0, 0, 0, 0, 0, 0, 0] : List Nat).length =
      ([131, 109, 0, 0, 0, 10, 0, 0, 0, 0, 0, 0, 0, 0, 0, 0] : List Nat).length ∧
    ([131, 80, 0, 0, 0, 15, 0, 0, 0, 0, 0, 0, 0, 0, 0, 0] : List Nat) ≠
      [131, 109, 0, 0, 0, 10, 0, 0, 0, 0, 0, 0, 0, 0, 0, 0] :=
  ⟨rfl, rfl, rfl, by decide⟩

/-- C4, amended: for a truthy compression argument, `encode` emits the
compressed framing exactly when `len(deflate) + 5 ≤ len(payload)`, i.e.
when the total frame size does not increase (ties go to the compressed
form); when compression would strictly grow the frame the output equals
`encode(t, off)` byte for byte; and whenever both calls succeed,
`len(encode(t, compressed)) ≤ len(encode(t, off))`. -/
theorem C4_compression (host : Host) (t : Term) (carg : CompressArg)
    (lvl : Nat) (p : List Nat) (htl : truthyLevel carg = some lvl)
    (hp : encT t = .ok p) :
    ((host.compress lvl p).length + 5 ≤ p.length → p.length ≤ 4294967295 →
      encode host t carg =
        .ok (131 :: 80 :: beBytes 4 p.length ++ host.compress lvl p)) ∧
    (p.length < (host.compress lvl p).length + 5 →
      encode host t carg = encode host t (.bool false)) ∧
    (∀ f g, encode host t carg = .ok f → encode host t (.bool false) = .ok g →
      f.length ≤ g.length) := by
  have henc : encode host t carg =
      (if (host.compress lvl p).length + 5 ≤ p.length then
        if p.length ≤ 4294967295 then
          .ok (131 :: 80 :: beBytes 4 p.length ++ host.compress lvl p)
        else .error .packRange
      else .ok (131 :: p)) := by
    unfold encode
    rw [hp, ok_bind, htl]
  have huenc : encode host t (.bool false) = .ok (131 :: p) := by
    unfold encode
    rw [hp, ok_bind]
    rfl
  refine ⟨?_, ?_, ?_⟩
  · intro h1 h2
    rw [henc, if_pos h1, if_pos h2]
  · intro h1
    rw [henc, if_neg (by omega), huenc]
  · intro f g hf hg
    rw [huenc] at hg
    cases hg
    rw [henc] at hf
    split at hf
    · split at hf
      · cases hf
        simp only [List.length_cons, List.length_append, beBytes_length]
        omega
      · cases hf
    · cases hf
      simp

/-- C4 witness: the amended compressed-framing equation at a concrete
term and compressor. -/
theorem C4_witness :
    encode hostPad (Term.bin (List.replicate 10 0)) (.bool true) =
      .ok (131 :: 80 :: beBytes 4 (109 :: beBytes 4 10 ++
        List.replicate 10 0).length ++ hostPad.compress 6 (109 :: beBytes 4 10 ++
        List.replicate 10 0)) :=
  (C4_compression hostPad (Term.bin (List.replicate 10 0)) (.bool true) 6
    (109 :: beBytes 4 10 ++ List.replicate 10 0) rfl rfl).1 (by decide) (by decide)

/-! ### Claim C8 -/

/-- C8 counterexample: encoding a Pid whose id has only 3 bytes (serial
correct) succeeds instead of failing with InvalidField — the id width is
never checked. -/
theorem C8_counterexample :
    encT (Term.pid (Term.atom [110]) [0, 0, 0] [0, 0, 0, 0] 0) =
      .ok [103, 100, 0, 1, 110, 0, 0, 0, 0, 0, 0, 0, 0] := rfl

/-- C8, amended: encoding a Pid fails with InvalidField (the
`invalid pid serial field` ValueError) exactly when the serial field is
not 4 bytes; the id field is emitted unchecked, whatever its width; on
success the output is tag 103, the encoded node, the id bytes, the serial
bytes and one creation byte. -/
theorem C8_pid_encoding (node : Term) (id serial : List Nat) (c : Nat)
    (nb : List Nat) (hn : encT node = .ok nb) (hc : c ≤ 255) :
    (serial.length ≠ 4 →
      encT (Term.pid node id serial c) = .error .invalidPidSerial) ∧
    (serial.length = 4 →
      encT (Term.pid node id serial c) = .ok (103 :: nb ++ id ++ serial ++ [c])) := by
  constructor
  · intro h4
    unfold encT
    rw [hn, ok_bind, if_pos h4]
  · intro h4
    unfold encT
    rw [hn, ok_bind, if_neg (by omega), if_neg (by omega)]

/-- C8 witness: the amended Pid encoding at concrete fields. -/
theorem C8_witness :
    encT (Term.pid (Term.atom [110]) [1, 2, 3, 4] [5, 6, 7, 8] 9) =
      .ok (103 :: [100, 0, 1, 110] ++ [1, 2, 3, 4] ++ [5, 6, 7, 8] ++ [9]) :=
  (C8_pid_encoding (Term.atom [110]) [1, 2, 3, 4] [5, 6, 7, 8] 9
    [100, 0, 1, 110] rfl (by decide)).2 rfl

/-! ### Claim C5 -/

/-- C5: integer encoding selection: `0 ≤ n ≤ 255` gives tag 97 with the
single byte `n`; otherwise a signed 32-bit value gives tag 98 with the
big-endian two's complement; otherwise the sign byte (0 for nonnegative,
1 for negative) and the minimal little-endian magnitude bytes of `|n|`
(they reconstruct `|n|` and carry no trailing zero) under tag 110 when
their count fits one byte, tag 111 when it fits four bytes, and the
`invalid integer value` overflow error beyond that. -/
theorem C5_integer_encoding (n : Int) :
    ((0 ≤ n ∧ n ≤ 255) → encT (.int n) = .ok [97, n.toNat]) ∧
    (¬(0 ≤ n ∧ n ≤ 255) → (-2147483648 ≤ n ∧ n ≤ 2147483647) →
      encT (.int n) = .ok (98 :: beBytes 4 (n % 4294967296).toNat)) ∧
    (¬(-2147483648 ≤ n ∧ n ≤ 2147483647) →
      bigVal (magBytes n.natAbs) = n.natAbs ∧
      (magBytes n.natAbs).getLast? ≠ some 0 ∧
      ((magBytes n.natAbs).length ≤ 255 → encT (.int n) = .ok
        (110 :: (magBytes n.natAbs).length :: (if 0 ≤ n then 0 else 1) ::
          magBytes n.natAbs)) ∧
      (255 < (magBytes n.natAbs).length → (magBytes n.natAbs).length ≤ 4294967295 →
        encT (.int n) = .ok (111 :: beBytes 4 (magBytes n.natAbs).length ++
          (if 0 ≤ n then 0 else 1) :: magBytes n.natAbs)) ∧
      (4294967295 < (magBytes n.natAbs).length →
        encT (.int n) = .error .invalidIntegerValue)) := by
  refine ⟨?_, ?_, ?_⟩
  · intro h
    unfold encT
    rw [if_pos (by simp only [Bool.and_eq_true, decide_eq_true_eq]; omega)]
  · intro h1 h2
    unfold encT
    rw [if_neg (by simp only [Bool.and_eq_true, decide_eq_true_eq]; omega),
      if_pos (by simp only [Bool.and_eq_true, decide_eq_true_eq]; omega)]
  · intro h1
    refine ⟨bigVal_magBytes _, magBytes_getLast _ (by omega), ?_, ?_, ?_⟩
    · intro hlen
      unfold encT
      rw [if_neg (by simp only [Bool.and_eq_true, decide_eq_true_eq]; omega),
        if_neg (by simp only [Bool.and_eq_true, decide_eq_true_eq]; omega)]
      dsimp only
      rw [if_pos hlen]
    · intro hlen1 hlen2
      unfold encT
      rw [if_neg (by simp only [Bool.and_eq_true, decide_eq_true_eq]; omega),
        if_neg (by simp only [Bool.and_eq_true, decide_eq_true_eq]; omega)]
      dsimp only
      rw [if_neg (by omega), if_pos hlen2]
    · intro hlen
      unfold encT
      rw [if_neg (by simp only [Bool.and_eq_true, decide_eq_true_eq]; omega),
        if_neg (by simp only [Bool.and_eq_true, decide_eq_true_eq]; omega)]
      dsimp only
      rw [if_neg (by omega), if_neg (by omega)]

/-- C5 witness: the small-integer conjunct at 7 and the 32-bit conjunct
at -1. -/
theorem C5_witness :
    encT (.int 7) = .ok [97, Int.toNat 7] ∧
    encT (.int (-1)) = .ok (98 :: beBytes 4 ((-1 : Int) % 4294967296).toNat) :=
  ⟨(C5_integer_encoding 7).1 (by decide),
    (C5_integer_encoding (-1)).2.1 (by decide) (by decide)⟩

/-! ### Claim C10 -/

/-- C10: every non-empty list of length at most 65535 whose elements are
Booleans or integers in `[0, 255]` is encoded on the STRING (tag 107) fast
path, one byte per element, with `True`/`False` contributing bytes 1/0;
consequently `decode(encode([True, False], off))` yields the list
`[1, 0]` of integers, for every host. -/
theorem C10_string_fast_path :
    (∀ (l : List Term), l ≠ [] → l.length ≤ 65535 → l.all stringableElem = true →
      encT (.list l) = .ok (107 :: beBytes 2 l.length ++ l.map byteOf)) ∧
    byteOf (Term.bool true) = 1 ∧ byteOf (Term.bool false) = 0 ∧
    (∀ host : Host,
      encode host (Term.list [Term.bool true, Term.bool false]) (.bool false) =
        .ok [131, 107, 0, 2, 1, 0]) ∧
    (∀ host : Host, decode host [131, 107, 0, 2, 1, 0] =
      .ok (Term.list [Term.int 1, Term.int 0], [])) := by
  refine ⟨?_, rfl, rfl, fun host => rfl, fun host => rfl⟩
  intro l hne hlen hall
  unfold encT
  rw [if_neg (by simp [List.isEmpty_iff, hne])]
  dsimp only
  rw [if_pos (by simp only [Bool.and_eq_true, decide_eq_true_eq]; exact ⟨hlen, hall⟩)]

/-- C10 witness: the STRING fast path at the concrete list `[65, True]`. -/
theorem C10_witness :
    encT (.list [Term.int 65, Term.bool true]) =
      .ok (107 :: beBytes 2 ([Term.int 65, Term.bool true]).length ++
        [Term.int 65, Term.bool true].map byteOf) :=
  C10_string_fast_path.1 [Term.int 65, Term.bool true]
    (by simp) (by simp) (by rfl)

/-! ### Claim C7 -/

/-- C7: decoding tag 108 (LIST) with declared length `n` decodes exactly
`n` element terms, then decodes one further term — the list tail — and
discards it unconditionally: the result is the proper list of the `n`
elements and the tail term does not appear in it, whatever it was. -/
theorem C7_list_tail_discarded (host : Host) (fuel n : Nat)
    (s r r2 : List Nat) (items : List Term) (tailTerm : Term)
    (hn : n ≤ 4294967295)
    (hseq : decodeS host fuel n s = .ok (items, r))
    (htail : decodeT host fuel r = .ok (tailTerm, r2)) :
    decodeT host (fuel + 1) (108 :: beBytes 4 n ++ s) = .ok (.list items, r2) := by
  have hread : need (readN 4 (beBytes 4 n ++ s)) = .ok (beBytes 4 n, s) :=
    need_readN_exact (beBytes 4 n) s (beBytes_length 4 n)
  have hval : beVal (beBytes 4 n) = n := beVal_beBytes 4 n (by norm_num; omega)
  simp only [decodeT, List.cons_append, hread, ok_bind, hval, hseq, htail]

/-- C7 witness: the improper list `[7 | 5]` decodes to `[7]`; the tail
term `5` is dropped. -/
theorem C7_witness :
    decodeT hostId 3 [108, 0, 0, 0, 1, 97, 7, 97, 5] =
      .ok (.list [Term.int 7], []) :=
  C7_list_tail_discarded hostId 2 1 [97, 7, 97, 5] [97, 5] []
    [Term.int 7] (Term.int 5) (by decide) (by rfl) (by rfl)

/-! ### Claim C3 -/

/-- C3 counterexample: decoding the 2-tuple `(Atom "python_pickle",
Integer 0)` with a failing bridge produces the bridge error — the raw
tuple is not returned and the error does escape to the caller. -/
theorem C3_counterexample :
    decode hostId [131, 104, 2, 100, 0, 13, 112, 121, 116, 104, 111, 110, 95,
      112, 105, 99, 107, 108, 101, 97, 0] = .error .bridgeFailed := rfl

/-- C3, amended: after building a tuple of arity 2 whose first element
compares equal to the atom `python_pickle`, a failure of the fallback
bridge is propagated to the caller as an error (there is no handler
around `loads`); the raw 2-tuple is not returned. -/
theorem C3_bridge_error (host : Host) (fuel n : Nat) (s r : List Nat)
    (a x : Term) (hseq : decodeS host fuel n s = .ok ([a, x], r))
    (hpick : isPickleHead a = true) (hload : host.loads x = .error ()) :
    decodeT host (fuel + 1) (104 :: n :: s) = .error .bridgeFailed := by
  have hread : need (readN 1 (n :: s)) = .ok ([n], s) :=
    need_readN_exact [n] s (by simp)
  have hft : finishTuple host [a, x] r = .error .bridgeFailed := by
    simp only [finishTuple, hpick, if_true, hload]
  simp only [decodeT, hread, ok_bind, beVal_singleton, hseq, hft]

/-- C3 witness: the propagated bridge failure at a concrete frame body. -/
theorem C3_witness :
    decodeT hostId 6 (104 :: 2 :: (100 :: 0 :: 13 :: pickleName ++ [97, 0])) =
      .error .bridgeFailed :=
  C3_bridge_error hostId 5 2 (100 :: 0 :: 13 :: pickleName ++ [97, 0]) []
    (Term.atom pickleName) (Term.int 0) (by rfl) (by rfl) (by rfl)

/-! ### Claim C6 -/

/-- Host whose float parser accepts exactly the ASCII text `1.5`. -/
def hostFloat : Host :=
  ⟨fun _ => .error (), fun s => if s = [49, 46, 53] then .ok 0 else .error (),
    fun _ p => p, fun z => (z, [])⟩

/-- C6 counterexample: `83 63 "1.5"` is a valid frame (it decodes to a
Float with empty tail, the legacy FLOAT reader parsing the 3-byte ASCII
body), but appending the byte `6A` makes decode fail: the 31-byte legacy
float read swallows the appended suffix into the ASCII text, which no
longer parses. -/
theorem C6_counterexample :
    decode hostFloat [131, 99, 49, 46, 53] = .ok (Term.float 0, []) ∧
    decode hostFloat ([131, 99, 49, 46, 53] ++ [106]) = .error .badFloat :=
  ⟨rfl, rfl⟩

/-- C6, amended: for every frame `f` produced by `encode` on a term
satisfying the §3 invariants — compressed or uncompressed, assuming the
deflate stream contract for the host's zlib pair — and every byte string
`s`, `decode (f ++ s)` succeeds and returns exactly the suffix `s` as
unread tail (arbitrary valid frames are excluded: a frame whose payload
uses the legacy FLOAT tag 99 reads into the appended suffix). -/
theorem C6_tail_preserved (host : Host) (t : Term) (carg : CompressArg)
    (f s : List Nat) (hwf : wfT t = true) (hz : GoodZlib host)
    (he : encode host t carg = .ok f) :
    decode host (f ++ s) = .ok (t, s) := by
  unfold encode at he
  rcases exbind_eq_ok he with ⟨b, hb, he⟩
  rcases htl : truthyLevel carg with _ | lvl <;> rw [htl] at he
  · dsimp only at he
    cases he
    exact decode_frame_uncompressed host t b s hwf hb
  · dsimp only at he
    split at he
    case isTrue hzle =>
      split at he
      case isTrue h32 =>
        cases he
        show decode host ((131 :: ((80 :: beBytes 4 b.length) ++
          host.compress lvl b)) ++ s) = .ok (t, s)
        unfold decode
        simp only [List.cons_append, List.append_assoc]
        rw [if_neg (by omega : ¬ ((131:Nat) ≠ 131))]
        rw [if_pos (by simp : List.take 1 (80 :: (beBytes 4 b.length ++
          (host.compress lvl b ++ s))) = [80])]
        rw [if_neg (by
          simp only [List.length_cons, List.length_append, beBytes_length]
          omega)]
        have hdrop : (131 :: 80 :: (beBytes 4 b.length ++
            (host.compress lvl b ++ s))).drop 6 = host.compress lvl b ++ s := by
          show (beBytes 4 b.length ++ (host.compress lvl b ++ s)).drop 4 =
            host.compress lvl b ++ s
          exact List.drop_left' (beBytes_length 4 _)
        rw [hdrop, hz lvl b s]
        dsimp only
        have htake : ((131 :: 80 :: (beBytes 4 b.length ++
            (host.compress lvl b ++ s))).take 6).drop 2 = beBytes 4 b.length := by
          show (beBytes 4 b.length ++ (host.compress lvl b ++ s)).take 4 =
            beBytes 4 b.length
          exact List.take_left' (beBytes_length 4 _)
        rw [htake, beVal_beBytes 4 b.length (by norm_num; omega)]
        rw [if_neg (by omega)]
        rcases encT_decodeT host t b hwf hb [] (fuelFor b) with hok | hfl
        · rw [List.append_nil] at hok
          rw [hok, ok_bind]
        · exfalso
          rw [List.append_nil] at hfl
          exact decodeT_noFuel host (fuelFor b) b (by simp [fuelFor]) hfl
      case isFalse => cases he
    case isFalse =>
      cases he
      exact decode_frame_uncompressed host t b s hwf hb

/-- Host whose "deflate" is a length-prefixed copy; it satisfies the
deflate stream contract. -/
def hostLen : Host :=
  ⟨fun _ => .error (), fun _ => .error (), fun _ p => p.length :: p,
    fun z => match z with
      | [] => ([], [])
      | n :: rest => (rest.take n, rest.drop n)⟩

theorem goodZlib_hostLen : GoodZlib hostLen := by
  intro lvl p u
  show (match (p.length :: p) ++ u with
    | [] => (([] : List Nat), ([] : List Nat))
    | n :: rest => (rest.take n, rest.drop n)) = (p, u)
  rw [List.cons_append]
  dsimp only
  rw [List.take_left, List.drop_left]

/-- C6 witness: the amended tail preservation at a concrete frame and
suffix. -/
theorem C6_witness :
    decode hostLen ([131, 106] ++ [97, 7]) = .ok (Term.list [], [97, 7]) :=
  C6_tail_preserved hostLen (Term.list []) (.bool false) [131, 106] [97, 7]
    (by rfl) goodZlib_hostLen (by rfl)

/-! ### Claim C2: truncating a canonical frame -/

theorem decodeT_nil_err (host : Host) (g : Nat) :
    decodeT host g [] = .error .incomplete ∨ decodeT host g [] = .error .fuelOut := by
  cases g
  · exact .inr rfl
  · exact .inl rfl

theorem take_append_big {l1 l2 : List Nat} {k : Nat} (h : l1.length ≤ k) :
    (l1 ++ l2).take k = l1 ++ l2.take (k - l1.length) := by
  rw [List.take_append_eq_append_take, List.take_of_length_le h]

theorem bind_err_prop {α β : Type} {m : Except DErr α} {f : α → Except DErr β}
    (h : m = .error .incomplete ∨ m = .error .fuelOut) :
    m >>= f = .error .incomplete ∨ m >>= f = .error .fuelOut := by
  rcases h with h | h <;> rw [h, error_bind]
  · exact .inl rfl
  · exact .inr rfl

mutual

theorem encT_truncation (host : Host) :
    ∀ (t : Term) (b : List Nat), wfT t = true → floatFreeT t = true →
      encT t = .ok b → ∀ (k : Nat), k < b.length → ∀ (g : Nat),
        decodeT host g (b.take k) = .error .incomplete ∨
        decodeT host g (b.take k) = .error .fuelOut
  | .int n, b, hwf, hff, he, k, hk, g => by
    unfold encT at he
    split at he
    case isTrue hr =>
      cases he
      rcases k with _ | k
      · rw [List.take_zero]
        exact decodeT_nil_err host g
      · simp only [List.length_cons, List.length_nil] at hk
        have hk0 : k = 0 := by omega
        subst hk0
        cases g with
        | zero => exact .inr rfl
        | succ g => exact .inl rfl
    case isFalse =>
      split at he
      case isTrue =>
        cases he
        rcases k with _ | k
        · rw [List.take_zero]
          exact decodeT_nil_err host g
        · cases g with
          | zero => exact .inr rfl
          | succ g =>
            left
            simp only [List.length_cons, List.length_append, beBytes_length] at hk
            rw [List.take_succ_cons]
            simp only [decodeT]
            have hnone : readN 4 ((beBytes 4 (n % 4294967296).toNat).take k) = none :=
              readN_none (by rw [List.length_take]; simp [beBytes_length]; omega)
            rw [hnone]
            rfl
      case isFalse =>
        dsimp only at he
        split at he
        case isTrue =>
          cases he
          rcases k with _ | k
          · rw [List.take_zero]
            exact decodeT_nil_err host g
          · cases g with
            | zero => exact .inr rfl
            | succ g =>
              left
              simp only [List.length_cons] at hk
              rw [List.take_succ_cons]
              rcases Nat.lt_or_ge k 2 with h2 | h2
              · simp only [decodeT]
                have hnone : readN 2 (((magBytes n.natAbs).length ::
                    (if 0 ≤ n then 0 else 1) :: magBytes n.natAbs).take k) = none :=
                  readN_none (by rw [List.length_take]; simp only [List.length_cons]; omega)
                rw [hnone]
                rfl
              · obtain ⟨k2, rfl⟩ : ∃ k2, k = k2 + 2 := ⟨k - 2, by omega⟩
                rw [List.take_succ_cons, List.take_succ_cons]
                simp only [decodeT]
                rw [show ((magBytes n.natAbs).length :: (if 0 ≤ n then 0 else 1) ::
                    (magBytes n.natAbs).take k2) = [(magBytes n.natAbs).length,
                    if 0 ≤ n then 0 else 1] ++ (magBytes n.natAbs).take k2 from rfl]
                rw [need_readN_exact _ _ (by simp), ok_bind]
                dsimp only
                rw [show ([(magBytes n.natAbs).length,
                    if 0 ≤ n then 0 else 1].take 1) = [(magBytes n.natAbs).length] from rfl,
                  beVal_singleton]
                have hnone : readN (magBytes n.natAbs).length
                    ((magBytes n.natAbs).take k2) = none :=
                  readN_take_short _ (by omega)
                rw [hnone]
                rfl
        case isFalse =>
          split at he
          case isTrue =>
            cases he
            rcases k with _ | k
            · rw [List.take_zero]
              exact decodeT_nil_err host g
            · cases g with
              | zero => exact .inr rfl
              | succ g =>
                left
                simp only [List.length_cons, List.length_append, beBytes_length] at hk
                rw [List.cons_append, List.take_succ_cons]
                rcases Nat.lt_or_ge k 5 with h5 | h5
                · simp only [decodeT]
                  have hnone : readN 5 ((beBytes 4 (magBytes n.natAbs).length ++
                      (if 0 ≤ n then 0 else 1) :: magBytes n.natAbs).take k) = none :=
                    readN_none (by
                      rw [List.length_take]
                      simp only [List.length_cons, List.length_append, beBytes_length]
                      omega)
                  rw [hnone]
                  rfl
                · obtain ⟨k5, rfl⟩ : ∃ k5, k = k5 + 5 := ⟨k - 5, by omega⟩
                  rw [take_append_big (by rw [beBytes_length]; omega)]
                  have harith : k5 + 5 - (beBytes 4 (magBytes n.natAbs).length).length =
                      k5 + 1 := by
                    simp only [beBytes_length]
                    omega
                  rw [harith, List.take_succ_cons]
                  rw [show (beBytes 4 (magBytes n.natAbs).length ++
                      ((if 0 ≤ n then 0 else 1) :: (magBytes n.natAbs).take k5)) =
                    (beBytes 4 (magBytes n.natAbs).length ++ [if 0 ≤ n then 0 else 1]) ++
                      (magBytes n.natAbs).take k5 by simp]
                  simp only [decodeT]
                  rw [need_readN_exact _ _ (by simp [beBytes_length]), ok_bind]
                  dsimp only
                  rw [List.take_left' (beBytes_length 4 _),
                    beVal_beBytes 4 _ (by norm_num; omega)]
                  have hnone : readN (magBytes n.natAbs).length
                      ((magBytes n.natAbs).take k5) = none :=
                    readN_take_short _ (by omega)
                  rw [hnone]
                  rfl
          case isFalse => cases he
  | .float p, b, hwf, hff, he, k, hk, g => by
    simp [floatFreeT] at hff
  | .atom name, b, hwf, hff, he, k, hk, g => by
    simp only [wfT, Bool.and_eq_true, decide_eq_true_eq, ne_eq] at hwf
    obtain ⟨⟨⟨⟨hok, hlen⟩, ht⟩, hf⟩, hn⟩ := hwf
    unfold encT at he
    split at he
    case isFalse => omega
    case isTrue =>
      cases he
      rcases k with _ | k
      · rw [List.take_zero]
        exact decodeT_nil_err host g
      · cases g with
        | zero => exact .inr rfl
        | succ g =>
          left
          simp only [List.length_cons, List.length_append, beBytes_length] at hk
          rw [List.cons_append, List.take_succ_cons]
          rcases Nat.lt_or_ge k 2 with h2 | h2
          · simp only [decodeT]
            have hnone : readN 2 ((beBytes 2 name.length ++ name).take k) = none :=
              readN_none (by
                rw [List.length_take]
                simp only [List.length_append, beBytes_length]
                omega)
            rw [hnone]
            rfl
          · rw [take_append_big (by rw [beBytes_length]; omega)]
            simp only [decodeT]
            rw [need_readN_exact _ _ (beBytes_length 2 _), ok_bind]
            dsimp only
            rw [beVal_beBytes 2 name.length (by norm_num; omega)]
            have hnone : readN name.length
                (name.take (k - (beBytes 2 name.length).length)) = none :=
              readN_take_short _ (by rw [beBytes_length]; omega)
            rw [hnone]
            rfl
  | .bits d kb, b, hwf, hff, he, k, hk, g => by
    simp only [wfT, Bool.and_eq_true, decide_eq_true_eq] at hwf
    obtain ⟨⟨⟨hok, hlen⟩, hk1⟩, hk8⟩ := hwf
    unfold encT at he
    split at he
    case isFalse hc =>
      exfalso
      simp only [Bool.and_eq_true, decide_eq_true_eq] at hc
      omega
    case isTrue =>
      cases he
      rcases k with _ | k
      · rw [List.take_zero]
        exact decodeT_nil_err host g
      · cases g with
        | zero => exact .inr rfl
        | succ g =>
          left
          simp only [List.length_cons, List.length_append, beBytes_length] at hk
          rw [List.cons_append, List.take_succ_cons]
          rcases Nat.lt_or_ge k 5 with h5 | h5
          · simp only [decodeT]
            have hnone : readN 5 ((beBytes 4 d.length ++ kb :: d).take k) = none :=
              readN_none (by
                rw [List.length_take]
                simp only [List.length_cons, List.length_append, beBytes_length]
                omega)
            rw [hnone]
            rfl
          · obtain ⟨k5, rfl⟩ : ∃ k5, k = k5 + 5 := ⟨k - 5, by omega⟩
            rw [take_append_big (by rw [beBytes_length]; omega)]
            have harith : k5 + 5 - (beBytes 4 d.length).length = k5 + 1 := by
              simp only [beBytes_length]
              omega
            rw [harith, List.take_succ_cons]
            rw [show (beBytes 4 d.length ++ (kb :: d.take k5)) =
              (beBytes 4 d.length ++ [kb]) ++ d.take k5 by simp]
            simp only [decodeT]
            rw [need_readN_exact _ _ (by simp [beBytes_length]), ok_bind]
            dsimp only
            rw [List.take_left' (beBytes_length 4 _),
              beVal_beBytes 4 _ (by norm_num; omega)]
            have hnone : readN d.length (d.take k5) = none :=
              readN_take_short _ (by omega)
            rw [hnone]
            rfl
  | .bin d, b, hwf, hff, he, k, hk, g => by
    simp only [wfT, Bool.and_eq_true, decide_eq_true_eq] at hwf
    unfold encT at he
    split at he
    case isTrue => omega
    case isFalse =>
      cases he
      rcases k with _ | k
      · rw [List.take_zero]
        exact decodeT_nil_err host g
      · cases g with
        | zero => exact .inr rfl
        | succ g =>
          left
          simp only [List.length_cons, List.length_append, beBytes_length] at hk
          rw [List.cons_append, List.take_succ_cons]
          rcases Nat.lt_or_ge k 4 with h4 | h4
          · simp only [decodeT]
            have hnone : readN 4 ((beBytes 4 d.length ++ d).take k) = none :=
              readN_none (by
                rw [List.length_take]
                simp only [List.length_append, beBytes_length]
                omega)
            rw [hnone]
            rfl
          · rw [take_append_big (by rw [beBytes_length]; omega)]
            simp only [decodeT]
            rw [need_readN_exact _ _ (beBytes_length 4 _), ok_bind]
            dsimp only
            rw [beVal_beBytes 4 d.length (by norm_num; omega)]
            have hnone : readN d.length
                (d.take (k - (beBytes 4 d.length).length)) = none :=
              readN_take_short _ (by rw [beBytes_length]; omega)
            rw [hnone]
            rfl
  | .bool v, b, hwf, hff, he, k, hk, g => by
    simp [wfT] at hwf
  | .null, b, hwf, hff, he, k, hk, g => by
    simp [wfT] at hwf
  | .list items, b, hwf, hff, he, k, hk, g => by
    simp only [wfT, Bool.and_eq_true, decide_eq_true_eq] at hwf
    simp only [floatFreeT] at hff
    unfold encT at he
    split at he
    case isTrue hemp =>
      cases he
      simp only [List.length_cons, List.length_nil] at hk
      have hk0 : k = 0 := by omega
      subst hk0
      rw [List.take_zero]
      exact decodeT_nil_err host g
    case isFalse hemp =>
      dsimp only at he
      split at he
      case isTrue hcond =>
        cases he
        simp only [Bool.and_eq_true, decide_eq_true_eq] at hcond
        rcases k with _ | k
        · rw [List.take_zero]
          exact decodeT_nil_err host g
        · cases g with
          | zero => exact .inr rfl
          | succ g =>
            left
            simp only [List.length_cons, List.length_append, List.length_map,
              beBytes_length] at hk
            rw [List.cons_append, List.take_succ_cons]
            rcases Nat.lt_or_ge k 2 with h2 | h2
            · simp only [decodeT]
              have hnone : readN 2 ((beBytes 2 items.length ++
                  items.map byteOf).take k) = none :=
                readN_none (by
                  rw [List.length_take]
                  simp only [List.length_append, List.length_map, beBytes_length]
                  omega)
              rw [hnone]
              rfl
            · rw [take_append_big (by rw [beBytes_length]; omega)]
              simp only [decodeT]
              rw [need_readN_exact _ _ (beBytes_length 2 _), ok_bind]
              dsimp only
              rw [beVal_beBytes 2 items.length (by norm_num; omega)]
              have hnone : readN items.length ((items.map byteOf).take
                  (k - (beBytes 2 items.length).length)) = none :=
                readN_none (by
                  rw [List.length_take]
                  simp only [List.length_map, beBytes_length]
                  omega)
              rw [hnone]
              rfl
      case isFalse hcond =>
        split at he
        case isTrue h32 => cases he
        case isFalse h32 =>
          rcases exbind_eq_ok he with ⟨body, hbody, he⟩
          cases he
          rcases k with _ | k
          · rw [List.take_zero]
            exact decodeT_nil_err host g
          · cases g with
            | zero => exact .inr rfl
            | succ g =>
              simp only [List.length_cons, List.length_append, beBytes_length,
                List.length_nil] at hk
              simp only [List.cons_append, List.append_assoc]
              rw [List.take_succ_cons]
              rcases Nat.lt_or_ge k 4 with h4 | h4
              · left
                simp only [decodeT]
                have hnone : readN 4 ((beBytes 4 items.length ++
                    (body ++ [106])).take k) = none :=
                  readN_none (by
                    rw [List.length_take]
                    simp only [List.length_cons, List.length_append, List.length_nil,
                      beBytes_length]
                    omega)
                rw [hnone]
                rfl
              · rw [take_append_big (by rw [beBytes_length]; omega)]
                simp only [decodeT]
                rw [need_readN_exact _ _ (beBytes_length 4 _), ok_bind]
                dsimp only
                rw [beVal_beBytes 4 items.length (by norm_num; omega)]
                rcases Nat.lt_or_ge (k - (beBytes 4 items.length).length)
                    body.length with hkb | hkb
                · rw [List.take_append_of_le_length (by omega)]
                  exact bind_err_prop (encL_truncation host items body hwf.1 hff
                    hbody _ hkb g)
                · have hkeq : k - (beBytes 4 items.length).length = body.length := by
                    rw [beBytes_length] at *
                    omega
                  rw [hkeq, List.take_append_of_le_length (le_refl _),
                    List.take_of_length_le (le_refl _)]
                  rcases encL_decodeS host items body hwf.1 hbody [] g with hok | hfl
                  · rw [List.append_nil] at hok
                    rw [hok, ok_bind]
                    dsimp only
                    exact bind_err_prop (decodeT_nil_err host g)
                  · rw [List.append_nil] at hfl
                    rw [hfl, error_bind]
                    exact .inr rfl
  | .tuple items, b, hwf, hff, he, k, hk, g => by
    simp only [wfT, Bool.and_eq_true, decide_eq_true_eq, Bool.not_eq_true'] at hwf
    obtain ⟨⟨hwl, hlen⟩, hnp⟩ := hwf
    simp only [floatFreeT] at hff
    unfold encT at he
    dsimp only at he
    split at he
    · rcases exbind_eq_ok he with ⟨hd, hhd, he⟩
      cases hhd
      rcases exbind_eq_ok he with ⟨body, hbody, he⟩
      cases he
      rcases k with _ | k
      · rw [List.take_zero]
        exact decodeT_nil_err host g
      · cases g with
        | zero => exact .inr rfl
        | succ g =>
          simp only [List.length_cons, List.length_append, List.length_nil] at hk
          rw [List.cons_append, List.take_succ_cons]
          rcases k with _ | k
          · left
            simp only [List.take_zero]
            rfl
          · rw [List.cons_append, List.nil_append, List.take_succ_cons]
            rw [show (items.length :: body.take k) =
              [items.length] ++ body.take k from rfl]
            simp only [decodeT]
            rw [need_readN_exact _ _ (by simp), ok_bind]
            dsimp only
            rw [beVal_singleton]
            exact bind_err_prop (encL_truncation host items body hwl hff
              hbody k (by omega) g)
    · rcases exbind_eq_ok he with ⟨hd, hhd, he⟩
      cases hhd
      rcases exbind_eq_ok he with ⟨body, hbody, he⟩
      cases he
      rcases k with _ | k
      · rw [List.take_zero]
        exact decodeT_nil_err host g
      · cases g with
        | zero => exact .inr rfl
        | succ g =>
          simp only [List.length_cons, List.length_append, beBytes_length] at hk
          rw [List.cons_append, List.take_succ_cons]
          rcases Nat.lt_or_ge k 4 with h4 | h4
          · left
            simp only [decodeT]
            have hnone : readN 4 ((beBytes 4 items.length ++ body).take k) = none :=
              readN_none (by
                rw [List.length_take]
                simp only [List.length_append, beBytes_length]
                omega)
            rw [hnone]
            rfl
          · rw [take_append_big (by rw [beBytes_length]; omega)]
            simp only [decodeT]
            rw [need_readN_exact _ _ (beBytes_length 4 _), ok_bind]
            dsimp only
            rw [beVal_beBytes 4 items.length (by norm_num; omega)]
            exact bind_err_prop (encL_truncation host items body hwl hff
              hbody _ (by rw [beBytes_length] at *; omega) g)
  | .pid node id serial c, b, hwf, hff, he, k, hk, g => by
    simp only [wfT, Bool.and_eq_true, decide_eq_true_eq] at hwf
    obtain ⟨⟨⟨⟨⟨hnode, hidok⟩, hid⟩, hsok⟩, hserial⟩, hc⟩ := hwf
    simp only [floatFreeT] at hff
    unfold encT at he
    rcases exbind_eq_ok he with ⟨nb, hn, he⟩
    split at he
    case isTrue h4 => exact (h4 hserial).elim
    case isFalse =>
      split at he
      case isTrue h255 => omega
      case isFalse =>
        cases he
        rcases k with _ | k
        · rw [List.take_zero]
          exact decodeT_nil_err host g
        · cases g with
          | zero => exact .inr rfl
          | succ g =>
            simp only [List.length_cons, List.length_append, List.length_nil] at hk
            rw [show (103 :: nb ++ id ++ serial ++ [c]) =
              103 :: (nb ++ (id ++ serial ++ [c])) by simp]
            rw [List.take_succ_cons]
            rcases Nat.lt_or_ge k nb.length with hkn | hkn
            · rw [List.take_append_of_le_length (by omega)]
              simp only [decodeT]
              exact bind_err_prop (encT_truncation host node nb hnode hff hn
                k hkn g)
            · rw [take_append_big hkn]
              simp only [decodeT]
              rcases encT_decodeT host node nb hnode hn
                ((id ++ serial ++ [c]).take (k - nb.length)) g with hok | hfl
              · rw [hok, ok_bind]
                dsimp only
                have hnone : readN 9 ((id ++ serial ++ [c]).take (k - nb.length)) =
                    none :=
                  readN_none (by
                    rw [List.length_take]
                    simp only [List.length_cons, List.length_append, List.length_nil]
                    omega)
                rw [hnone]
                left
                rfl
              · rw [hfl, error_bind]
                exact .inr rfl
  | .port node id c, b, hwf, hff, he, k, hk, g => by
    simp only [wfT, Bool.and_eq_true, decide_eq_true_eq] at hwf
    obtain ⟨⟨⟨hnode, hidok⟩, hid⟩, hc⟩ := hwf
    simp only [floatFreeT] at hff
    unfold encT at he
    rcases exbind_eq_ok he with ⟨nb, hn, he⟩
    split at he
    case isTrue h4 => exact (h4 hid).elim
    case isFalse =>
      split at he
      case isTrue h255 => omega
      case isFalse =>
        cases he
        rcases k with _ | k
        · rw [List.take_zero]
          exact decodeT_nil_err host g
        · cases g with
          | zero => exact .inr rfl
          | succ g =>
            simp only [List.length_cons, List.length_append, List.length_nil] at hk
            rw [show (102 :: nb ++ id ++ [c]) = 102 :: (nb ++ (id ++ [c])) by simp]
            rw [List.take_succ_cons]
            rcases Nat.lt_or_ge k nb.length with hkn | hkn
            · rw [List.take_append_of_le_length (by omega)]
              simp only [decodeT]
              exact bind_err_prop (encT_truncation host node nb hnode hff hn
                k hkn g)
            · rw [take_append_big hkn]
              simp only [decodeT]
              rcases encT_decodeT host node nb hnode hn
                ((id ++ [c]).take (k - nb.length)) g with hok | hfl
              · rw [hok, ok_bind]
                dsimp only
                have hnone : readN 5 ((id ++ [c]).take (k - nb.length)) = none :=
                  readN_none (by
                    rw [List.length_take]
                    simp only [List.length_cons, List.length_append, List.length_nil]
                    omega)
                rw [hnone]
                left
                rfl
              · rw [hfl, error_bind]
                exact .inr rfl
  | .ref node id c, b, hwf, hff, he, k, hk, g => by
    simp only [wfT, Bool.and_eq_true, decide_eq_true_eq] at hwf
    obtain ⟨⟨⟨⟨⟨hnode, hidok⟩, hmod⟩, hmin⟩, hdiv⟩, hc⟩ := hwf
    simp only [floatFreeT] at hff
    unfold encT at he
    rcases exbind_eq_ok he with ⟨nb, hn, he⟩
    dsimp only at he
    split at he
    case isTrue h65 => omega
    case isFalse =>
      split at he
      case isTrue h255 => omega
      case isFalse =>
        cases he
        rcases k with _ | k
        · rw [List.take_zero]
          exact decodeT_nil_err host g
        · cases g with
          | zero => exact .inr rfl
          | succ g =>
            simp only [List.length_cons, List.length_append, beBytes_length] at hk
            rw [show (114 :: beBytes 2 (id.length / 4) ++ nb ++ c :: id) =
              114 :: (beBytes 2 (id.length / 4) ++ (nb ++ (c :: id))) by simp]
            rw [List.take_succ_cons]
            rcases Nat.lt_or_ge k 2 with h2 | h2
            · left
              simp only [decodeT]
              have hnone : readN 2 ((beBytes 2 (id.length / 4) ++
                  (nb ++ (c :: id))).take k) = none :=
                readN_none (by
                  rw [List.length_take]
                  simp only [List.length_cons, List.length_append, beBytes_length]
                  omega)
              rw [hnone]
              rfl
            · rw [take_append_big (by rw [beBytes_length]; omega)]
              simp only [decodeT]
              rw [need_readN_exact _ _ (beBytes_length 2 _), ok_bind]
              dsimp only
              rcases Nat.lt_or_ge (k - (beBytes 2 (id.length / 4)).length)
                  nb.length with hkn | hkn
              · rw [List.take_append_of_le_length (by omega)]
                exact bind_err_prop (encT_truncation host node nb hnode hff hn
                  _ hkn g)
              · rw [take_append_big hkn]
                rcases encT_decodeT host node nb hnode hn
                  ((c :: id).take (k - (beBytes 2 (id.length / 4)).length -
                    nb.length)) g with hok | hfl
                · rw [hok, ok_bind]
                  dsimp only
                  rw [beVal_beBytes 2 (id.length / 4) (by norm_num; omega)]
                  have hnone : readN (1 + id.length / 4 * 4)
                      ((c :: id).take (k - (beBytes 2 (id.length / 4)).length -
                        nb.length)) = none :=
                    readN_none (by
                      rw [List.length_take]
                      simp only [List.length_cons, beBytes_length] at *
                      omega)
                  rw [hnone]
                  left
                  rfl
                · rw [hfl, error_bind]
                  exact .inr rfl
  | .exp m1 f1 a1, b, hwf, hff, he, k, hk, g => by
    simp only [wfT, Bool.and_eq_true] at hwf
    obtain ⟨⟨hm, hf⟩, ha⟩ := hwf
    simp only [floatFreeT, Bool.and_eq_true] at hff
    obtain ⟨⟨hfm, hffn⟩, hfa⟩ := hff
    unfold encT at he
    rcases exbind_eq_ok he with ⟨mb, hmb, he⟩
    rcases exbind_eq_ok he with ⟨fb, hfb, he⟩
    rcases exbind_eq_ok he with ⟨ab, hab, he⟩
    cases he
    rcases k with _ | k
    · rw [List.take_zero]
      exact decodeT_nil_err host g
    · cases g with
      | zero => exact .inr rfl
      | succ g =>
        simp only [List.length_cons, List.length_append] at hk
        rw [show (113 :: mb ++ fb ++ ab) = 113 :: (mb ++ (fb ++ ab)) by simp]
        rw [List.take_succ_cons]
        rcases Nat.lt_or_ge k mb.length with hkm | hkm
        · rw [List.take_append_of_le_length (by omega)]
          simp only [decodeT]
          exact bind_err_prop (encT_truncation host m1 mb hm hfm hmb k hkm g)
        · rw [take_append_big hkm]
          simp only [decodeT]
          rcases encT_decodeT host m1 mb hm hmb ((fb ++ ab).take (k - mb.length)) g
            with hok | hfl
          · rw [hok, ok_bind]
            dsimp only
            rcases Nat.lt_or_ge (k - mb.length) fb.length with hkf | hkf
            · rw [List.take_append_of_le_length (by omega)]
              exact bind_err_prop (encT_truncation host f1 fb hf hffn hfb _ hkf g)
            · rw [take_append_big hkf]
              rcases encT_decodeT host f1 fb hf hfb
                (ab.take (k - mb.length - fb.length)) g with hok2 | hfl2
              · rw [hok2, ok_bind]
                dsimp only
                exact bind_err_prop (encT_truncation host a1 ab ha hfa hab _
                  (by omega) g)
              · rw [hfl2, error_bind]
                exact .inr rfl
          · rw [hfl, error_bind]
            exact .inr rfl

theorem encL_truncation (host : Host) :
    ∀ (l : List Term) (body : List Nat), wfL l = true → floatFreeL l = true →
      encL l = .ok body → ∀ (k : Nat), k < body.length → ∀ (g : Nat),
        decodeS host g l.length (body.take k) = .error .incomplete ∨
        decodeS host g l.length (body.take k) = .error .fuelOut
  | [], body, hwf, hff, he, k, hk, g => by
    unfold encL at he
    cases he
    simp at hk
  | t :: ts, body, hwf, hff, he, k, hk, g => by
    unfold encL at he
    rcases exbind_eq_ok he with ⟨b1, hb1, he⟩
    rcases exbind_eq_ok he with ⟨brest, hbr, he⟩
    cases he
    simp only [wfL, Bool.and_eq_true] at hwf
    simp only [floatFreeL, Bool.and_eq_true] at hff
    cases g with
    | zero => exact .inr rfl
    | succ g =>
      simp only [List.length_append] at hk
      simp only [List.length_cons]
      rcases Nat.lt_or_ge k b1.length with hkb | hkb
      · rw [List.take_append_of_le_length (by omega)]
        simp only [decodeS]
        exact bind_err_prop (encT_truncation host t b1 hwf.1 hff.1 hb1 k hkb g)
      · rw [take_append_big hkb]
        simp only [decodeS]
        rcases encT_decodeT host t b1 hwf.1 hb1 (brest.take (k - b1.length)) g
          with hok | hfl
        · rw [hok, ok_bind]
          dsimp only
          exact bind_err_prop (encL_truncation host ts brest hwf.2 hff.2 hbr _
            (by omega) g)
        · rw [hfl, error_bind]
          exact .inr rfl

end

/-! ### Claim C2 -/

/-- C2, amended: for every uncompressed frame produced by `encode` on a
well-formed term containing no Float subterm, and every k < L, decoding
the first k bytes fails with `IncompleteData` and with no other error.
The original claim's inclusion of NEW_FLOAT/FLOAT payloads and its
quantification over all valid frames (hence compressed ones) are refuted
by the counterexample: a truncated NEW_FLOAT frame raises the
`struct.error` of `unpack(">d")`, and a truncated compressed frame raises
the size-mismatch `ValueError`. -/
theorem C2_truncation (host : Host) (t : Term) (f : List Nat)
    (hwf : wfT t = true) (hff : floatFreeT t = true)
    (he : encode host t (.bool false) = .ok f) :
    ∀ k, k < f.length → decode host (f.take k) = .error .incomplete := by
  unfold encode at he
  rcases exbind_eq_ok he with ⟨b, hb, he⟩
  dsimp only [truthyLevel] at he
  cases he
  intro k hk
  rcases k with _ | k
  · rw [List.take_zero]
    rfl
  · rw [List.take_succ_cons]
    simp only [List.length_cons] at hk
    obtain ⟨c, cs, rfl, hc⟩ := encT_shape t b hb
    unfold decode
    dsimp only
    rw [if_neg (by omega : ¬ ((131:Nat) ≠ 131))]
    rcases k with _ | k
    · rw [List.take_zero]
      rw [if_neg (by simp : ¬ (List.take 1 ([] : List Nat) = [80]))]
      rfl
    · rw [List.take_succ_cons]
      rw [if_neg (by simp [hc] : ¬ (List.take 1 (c :: List.take k cs) = [80]))]
      rcases encT_truncation host t (c :: cs) hwf hff hb (k + 1)
        (by simpa using hk) (fuelFor (c :: cs.take k)) with hres | hres
      · rw [List.take_succ_cons] at hres
        exact hres
      · exfalso
        rw [List.take_succ_cons] at hres
        refine decodeT_noFuel host _ (c :: cs.take k) ?_ hres
        simp only [fuelFor, List.length_cons]
        omega

/-- C2, counterexample: the NEW_FLOAT frame `83 46 00×8` is valid (it
decodes to a Float with a zero bit pattern and empty tail) but its 2-byte
prefix fails with the `struct.error` of `unpack(">d")`, not
`IncompleteData`; and the valid compressed frame `83 50 00 00 00 02 61 01`
(under the identity-decompressor host) truncated by one byte fails with
the size-mismatch `ValueError`, not `IncompleteData`. -/
theorem C2_counterexample :
    decode hostId [131, 70, 0, 0, 0, 0, 0, 0, 0, 0] = .ok (.float 0, []) ∧
    decode hostId [131, 70] = .error .badStruct ∧
    decode hostId [131, 80, 0, 0, 0, 2, 97, 1] = .ok (.int 1, []) ∧
    decode hostId [131, 80, 0, 0, 0, 2, 97] = .error .sizeMismatch :=
  ⟨rfl, rfl, rfl, rfl⟩

/-- C2, witness: the Integer 1 is well-formed and float-free, encodes
uncompressed to the 3-byte frame `83 61 01`, and its 2-byte prefix decodes
to `IncompleteData`. -/
theorem C2_witness :
    wfT (Term.int 1) = true ∧ floatFreeT (Term.int 1) = true ∧
    encode hostId (Term.int 1) (.bool false) = .ok [131, 97, 1] ∧
    decode hostId (List.take 2 [131, 97, 1]) = .error .incomplete :=
  ⟨by decide, by decide, rfl,
    C2_truncation hostId (Term.int 1) [131, 97, 1] (by decide) (by decide) rfl 2
      (by decide)⟩

end ErlTerms
